import Mathlib

/-!
Verification of the mail retrieval and attachment-extraction pipeline of the
resume-parser repository (src/apps/mail-server/src/utils/ImapClient.ts and the
variant src/unnamed/part_000).  Pure computations — search-criteria building,
the RFC2047 encoded-word decoder, the body-structure walker, the filename
sanitizer and the attachment writer's path resolution — are embedded directly.
The event-driven message collector inside getMailList is embedded as a
deterministic fold over the transport's event trace (message / attributes /
body-end / error events, arbitrarily interleaved), and the two completion
disciplines (fixed 100 ms delay in ImapClient.ts versus the per-message
settlement promises of the part_000 variant) are modelled over symbolic
settlement times.
-/

namespace ResumeParser

/-- Decimal digit character (code 48 + n), as produced by JavaScript
number-to-string conversion. -/
def digitChar (n : Nat) : Char := Char.ofNat (48 + n)

/-- Decimal representation of a natural number, fuel-indexed so that the
definition is structurally recursive; models JavaScript `toString()` on
non-negative integers.  The fuel `n + 1` always suffices since a number has at
most `n + 1` decimal digits. -/
def natToDecAux : Nat → Nat → List Char
  | 0, _ => []
  | fuel + 1, n =>
    if n < 10 then [digitChar n]
    else natToDecAux fuel (n / 10) ++ [digitChar (n % 10)]

/-- JavaScript `n.toString()` for a non-negative number. -/
def natToDec (n : Nat) : String := String.mk (natToDecAux (n + 1) n)

/-- JavaScript string interpolation of a possibly negative integer. -/
def intToDec (y : Int) : String :=
  if y < 0 then "-" ++ natToDec y.natAbs else natToDec y.toNat

/-- JavaScript `padStart(2, zero)` as used for the day component of the query
date (ImapClient.ts line 104). -/
def padStart2 (s : String) : String :=
  if s.length < 2 then String.mk (List.replicate (2 - s.length) '0') ++ s else s

/-- The month-abbreviation table of `formatDate` (ImapClient.ts line 103). -/
def monthNames : List String :=
  ["Jan", "Feb", "Mar", "Apr", "May", "Jun", "Jul", "Aug", "Sep", "Oct", "Nov", "Dec"]

/-- The calendar-date part of a JavaScript `Date`: year as `getFullYear()`,
month as `getMonth()` (0-based), day as `getDate()` (1-based).  Time-of-day is
omitted: no observable output of buildSearchCriteria depends on it (the only
consumer, `formatDate`, reads the three date components). -/
structure CivilDate where
  year : Int
  month : Nat
  day : Nat
deriving Repr, DecidableEq

/-- formatDate of buildSearchCriteria (ImapClient.ts lines 102-105):
two-digit zero-padded day, month abbreviation looked up by `getMonth()` (a
month index outside the table would interpolate the string "undefined", as in
JavaScript), and the year interpolated without padding. -/
def formatDate (d : CivilDate) : String :=
  padStart2 (natToDec d.day) ++ "-" ++ monthNames.getD d.month "undefined" ++ "-"
    ++ intToDec d.year

/-- Gregorian leap-year rule, used by JavaScript `Date` day normalization. -/
def isLeapYear (y : Int) : Bool :=
  y % 4 = 0 && (y % 100 != 0 || y % 400 = 0)

/-- Days in the given 0-based month of the given year. -/
def daysInMonth (y : Int) (m : Nat) : Nat :=
  match m with
  | 0 => 31
  | 1 => if isLeapYear y then 29 else 28
  | 2 => 31
  | 3 => 30
  | 4 => 31
  | 5 => 30
  | 6 => 31
  | 7 => 31
  | 8 => 30
  | 9 => 31
  | 10 => 30
  | _ => 31

/-- The month preceding `(y, m)` in the JavaScript calendar. -/
def monthPred (y : Int) (m : Nat) : Int × Nat :=
  if m = 0 then (y - 1, 11) else (y, m - 1)

/-- The month following `(y, m)` in the JavaScript calendar. -/
def monthSucc (y : Int) (m : Nat) : Int × Nat :=
  if m = 11 then (y + 1, 0) else (y, m + 1)

/-- Day-of-month normalization of JavaScript `Date.setDate` / the `Date`
constructor: a day outside `1 ... daysInMonth` rolls into the neighbouring
months.  Fuel-indexed for structural recursion; every step moves the day
closer to range by at least 28, so the generous fuel supplied by `setDate` and
`mkJSDate` is never exhausted on reachable inputs. -/
def normDateAux : Nat → Int → Nat → Int → CivilDate
  | 0, y, m, d => ⟨y, m, d.toNat.max 1⟩
  | fuel + 1, y, m, d =>
    if d < 1 then
      let p := monthPred y m
      normDateAux fuel p.1 p.2 (d + daysInMonth p.1 p.2)
    else if d > (daysInMonth y m : Int) then
      let s := monthSucc y m
      normDateAux fuel s.1 s.2 (d - daysInMonth y m)
    else ⟨y, m, d.toNat⟩

/-- JavaScript `date.setDate(d)` (the resulting calendar date). -/
def setDate (c : CivilDate) (d : Int) : CivilDate :=
  normDateAux (d.natAbs + 64) c.year c.month d

/-- JavaScript `new Date(y, m, d)`: the month is normalized into `0 ... 11`
(rolling the year), then the day is normalized. -/
def mkJSDate (y m d : Int) : CivilDate :=
  normDateAux (d.natAbs + 64) (y + Int.ediv m 12) (Int.emod m 12).toNat d

/-- A JavaScript `Date` as read by buildSearchCriteria: the calendar date plus
`getDay()` (0 = Sunday). -/
structure JSDate where
  year : Int
  month : Nat
  day : Nat
  weekday : Nat
deriving Repr, DecidableEq

/-- The calendar-date part of a `JSDate`. -/
def JSDate.civil (d : JSDate) : CivilDate := ⟨d.year, d.month, d.day⟩

/-- The `timeRange` union type of FilterParams (ImapClient.ts line 17). -/
inductive TimeRange where
  | today
  | yesterday
  | thisWeek
  | last7days
  | last30days
  | thisMonth
  | lastMonth
  | custom
deriving Repr, DecidableEq

/-- FilterParams (ImapClient.ts lines 15-18). -/
structure FilterParams where
  limit : Option Nat := none
  timeRange : Option TimeRange := none
deriving Repr, DecidableEq

/-- One entry of the `searchCriteria` array: either the string value `ALL` or
a `[SINCE, date]` / `[BEFORE, date]` pair. -/
inductive SearchTerm where
  | all
  | since (date : String)
  | before (date : String)
deriving Repr, DecidableEq

/-- Whether a search term is a `SINCE` term. -/
def SearchTerm.isSince : SearchTerm → Bool
  | SearchTerm.since _ => true
  | _ => false

/-- Whether a search term is a `BEFORE` term. -/
def SearchTerm.isBefore : SearchTerm → Bool
  | SearchTerm.before _ => true
  | _ => false

/-- buildSearchCriteria (ImapClient.ts lines 92-133).  `now` is the `Date`
captured at line 98.  With no `timeRange` the criteria are `[ALL]`; each
handled range computes a `sinceDate` from `now` (the `setHours(0,0,0,0)` calls
only clear the time-of-day, which no output observes) and appends a single
`SINCE` term; the `last30days` and `custom` tags reach the `default` branch
and throw. -/
def buildSearchCriteria (now : JSDate) (filterParams : FilterParams) :
    Except String (List SearchTerm) :=
  match filterParams.timeRange with
  | none => Except.ok [SearchTerm.all]
  | some tr =>
    match tr with
    | TimeRange.today =>
      Except.ok [SearchTerm.all, SearchTerm.since (formatDate now.civil)]
    | TimeRange.yesterday =>
      Except.ok [SearchTerm.all,
        SearchTerm.since (formatDate (setDate now.civil ((now.day : Int) - 1)))]
    | TimeRange.thisWeek =>
      Except.ok [SearchTerm.all,
        SearchTerm.since
          (formatDate (setDate now.civil ((now.day : Int) - (now.weekday : Int))))]
    | TimeRange.last7days =>
      Except.ok [SearchTerm.all,
        SearchTerm.since (formatDate (setDate now.civil ((now.day : Int) - 6)))]
    | TimeRange.thisMonth =>
      Except.ok [SearchTerm.all,
        SearchTerm.since (formatDate (mkJSDate now.year (now.month : Int) 1))]
    | TimeRange.lastMonth =>
      Except.ok [SearchTerm.all,
        SearchTerm.since (formatDate (mkJSDate now.year ((now.month : Int) - 1) 1))]
    | TimeRange.last30days => Except.error "无效的时间范围"
    | TimeRange.custom => Except.error "无效的时间范围"

/-- The id-selection step of getMailList (ImapClient.ts line 204, part_000
line 151): `results.slice(0, limit)`, where an absent limit yields the whole
array and a present limit takes the first `limit` elements. -/
def selectFetchUids (results : List Nat) (limit : Option Nat) : List Nat :=
  match limit with
  | some l => results.take l
  | none => results

/-- A line-terminator character, which the JavaScript regex dot does not
match. -/
def isLineTerm (c : Char) : Bool :=
  c = '\n' || c = '\r' || c = Char.ofNat 0x2028 || c = Char.ofNat 0x2029

/-- A character of the regex class `[A-Za-z0-9-]` used for the charset token
in the split lookahead of decodeRFC2047 (ImapClient.ts line 137). -/
def isEWTokenChar (c : Char) : Bool := c.isAlpha || c.isDigit || c = '-'

/-- Whether the encoded-word lookahead `(?==\?[A-Za-z0-9-]+\?[BQ]\?)` matches
at the start of the given character list. -/
def isMarkerAt (s : List Char) : Bool :=
  match s with
  | '=' :: '?' :: rest =>
    let tok := rest.takeWhile isEWTokenChar
    !tok.isEmpty &&
      (match rest.drop tok.length with
       | '?' :: e :: '?' :: _ => e = 'B' || e = 'Q'
       | _ => false)
  | _ => false

/-- The `encoded.split(lookahead)` step of decodeRFC2047 (ImapClient.ts line
137): the string is cut immediately before every position (other than
position 0) at which the encoded-word lookahead matches; the pieces
concatenate back to the input.  `acc` holds the current piece reversed. -/
def splitEWAux (acc : List Char) : List Char → List (List Char)
  | [] => [acc.reverse]
  | c :: rest =>
    if !acc.isEmpty && isMarkerAt (c :: rest) then
      acc.reverse :: splitEWAux [c] rest
    else
      splitEWAux (c :: acc) rest

/-- Lazy match of the content group: the minimal decomposition
`s = content ++ [questionMark, equals] ++ rest` with `content` non-empty and
free of line terminators, mirroring the `(.+?)\?=` tail of the match regex at
ImapClient.ts line 141. -/
def findContent : List Char → Option (List Char)
  | [] => none
  | c :: rest =>
    if isLineTerm c then none
    else
      match rest with
      | '?' :: '=' :: _ => some [c]
      | _ =>
        match findContent rest with
        | some ct => some (c :: ct)
        | none => none

/-- Backtracking core of the match regex `=\?(.+?)\?([BQ])\?(.+?)\?=` applied
immediately after a literal `=?`: the charset group grows lazily; for each
candidate charset terminated by `?[BQ]?` the content group is sought, and on
failure the charset keeps growing, exactly as the JavaScript regex engine
backtracks. -/
def matchCore : List Char → Option (List Char × Char × List Char)
  | [] => none
  | c :: rest =>
    if isLineTerm c then none
    else
      match rest with
      | '?' :: e :: '?' :: rest2 =>
        if e = 'B' || e = 'Q' then
          match findContent rest2 with
          | some ct => some ([c], e, ct)
          | none =>
            match matchCore rest with
            | some (cs, e', ct) => some (c :: cs, e', ct)
            | none => none
        else
          match matchCore rest with
          | some (cs, e', ct) => some (c :: cs, e', ct)
          | none => none
      | _ =>
        match matchCore rest with
        | some (cs, e', ct) => some (c :: cs, e', ct)
        | none => none

/-- `part.match(regex)` of decodeRFC2047 (ImapClient.ts line 141): the
leftmost match of `=\?(.+?)\?([BQ])\?(.+?)\?=`, returning the three captured
groups (charset, encoding letter, content). -/
def findEncodedWordIn : List Char → Option (List Char × Char × List Char)
  | [] => none
  | c :: rest =>
    if c = '=' then
      match rest with
      | '?' :: tail =>
        match matchCore tail with
        | some g => some g
        | none => findEncodedWordIn rest
      | _ => findEncodedWordIn rest
    else findEncodedWordIn rest

/-- Base64 value of a character, `none` for characters outside the alphabet. -/
def b64Val (c : Char) : Option Nat :=
  if 'A' ≤ c && c ≤ 'Z' then some (c.toNat - 65)
  else if 'a' ≤ c && c ≤ 'z' then some (c.toNat - 71)
  else if '0' ≤ c && c ≤ '9' then some (c.toNat + 4)
  else if c = '+' then some 62
  else if c = '/' then some 63
  else none

/-- Byte assembly for base64 decoding: groups of four 6-bit values yield three
bytes; a trailing group of two or three values yields one or two bytes. -/
def b64Quads : List Nat → List Nat
  | a :: b :: c :: d :: rest =>
    (a * 4 + b / 16) :: (b % 16 * 16 + c / 4) :: (c % 4 * 64 + d) :: b64Quads rest
  | [a, b, c] => [a * 4 + b / 16, b % 16 * 16 + c / 4]
  | [a, b] => [a * 4 + b / 16]
  | _ => []

/-- Model of Node's `Buffer.from(content, base64)`: characters outside the
base64 alphabet are skipped and decoding stops at the first padding `=`. -/
def base64Decode (s : List Char) : List Nat :=
  b64Quads ((s.takeWhile (· ≠ '=')).filterMap b64Val)

/-- Whether a byte is a UTF-8 continuation byte. -/
def isContByte (b : Nat) : Bool := 128 ≤ b && b < 192

/-- Model of Node's `buffer.toString(utf8)`: standard UTF-8 decoding with the
replacement character for malformed sequences (surrogate-pair splitting of
astral code points is elided — a `Char` holds the full scalar value).  The
fuel argument only serves structural recursion; each step consumes at least
one byte, so `bytes.length + 1` is always enough. -/
def utf8DecodeAux : Nat → List Nat → List Char
  | 0, _ => []
  | _, [] => []
  | fuel + 1, b :: rest =>
    if b < 128 then Char.ofNat b :: utf8DecodeAux fuel rest
    else if b < 192 then Char.ofNat 0xFFFD :: utf8DecodeAux fuel rest
    else if b < 224 then
      match rest with
      | b2 :: rest2 =>
        if isContByte b2 then
          Char.ofNat ((b % 32) * 64 + b2 % 64) :: utf8DecodeAux fuel rest2
        else Char.ofNat 0xFFFD :: utf8DecodeAux fuel rest
      | [] => [Char.ofNat 0xFFFD]
    else if b < 240 then
      match rest with
      | b2 :: b3 :: rest3 =>
        if isContByte b2 && isContByte b3 then
          Char.ofNat ((b % 16) * 4096 + b2 % 64 * 64 + b3 % 64) :: utf8DecodeAux fuel rest3
        else Char.ofNat 0xFFFD :: utf8DecodeAux fuel rest
      | _ => [Char.ofNat 0xFFFD]
    else if b < 248 then
      match rest with
      | b2 :: b3 :: b4 :: rest4 =>
        if isContByte b2 && isContByte b3 && isContByte b4 then
          Char.ofNat ((b % 8) * 262144 + b2 % 64 * 4096 + b3 % 64 * 64 + b4 % 64)
            :: utf8DecodeAux fuel rest4
        else Char.ofNat 0xFFFD :: utf8DecodeAux fuel rest
      | _ => [Char.ofNat 0xFFFD]
    else Char.ofNat 0xFFFD :: utf8DecodeAux fuel rest

/-- UTF-8 decoding of a byte list (see `utf8DecodeAux`). -/
def utf8DecodeChars (bytes : List Nat) : List Char :=
  utf8DecodeAux (bytes.length + 1) bytes

/-- Model of Node's `buffer.toString(ascii)`: every byte is masked to 7 bits. -/
def asciiDecodeChars (bytes : List Nat) : List Char :=
  bytes.map (fun b => Char.ofNat (b % 128))

/-- The `B` branch of decodeRFC2047 (ImapClient.ts line 149):
`Buffer.from(content, base64).toString(charset lowercased = utf-8 ? utf8 :
ascii)`. -/
def bDecode (charset : List Char) (content : List Char) : List Char :=
  let bytes := base64Decode content
  if charset.map Char.toLower = "utf-8".toList then utf8DecodeChars bytes
  else asciiDecodeChars bytes

/-- An uppercase hexadecimal digit, the regex class `[0-9A-F]` of the `Q`
branch (ImapClient.ts line 151). -/
def isUpperHexDigit (c : Char) : Bool := c.isDigit || ('A' ≤ c && c ≤ 'F')

/-- Numeric value of an uppercase hexadecimal digit. -/
def hexVal (c : Char) : Nat := if c.isDigit then c.toNat - 48 else c.toNat - 55

/-- The `Q` branch of decodeRFC2047 (ImapClient.ts line 151): every `=XX`
escape with two uppercase hex digits becomes the byte's character; everything
else is copied verbatim, scanning left to right as a global regex replace
does. -/
def qDecode : List Char → List Char
  | '=' :: a :: b :: rest =>
    if isUpperHexDigit a && isUpperHexDigit b then
      Char.ofNat (16 * hexVal a + hexVal b) :: qDecode rest
    else '=' :: qDecode (a :: b :: rest)
  | c :: rest => c :: qDecode rest
  | [] => []

/-- Decoding of one matched encoded word (ImapClient.ts lines 147-152): the
encoding letter captured by `[BQ]` selects base64 or quoted-printable; the
uppercase test in the source is a no-op since only `B` and `Q` are captured. -/
def decodeSegmentPayload (charset : List Char) (e : Char) (content : List Char) :
    List Char :=
  if e = 'B' then bDecode charset content
  else if e = 'Q' then qDecode content
  else []

/-- A JavaScript whitespace character as removed by `String.trim()`
(restricted to the forms that can occur in the inputs modelled here). -/
def isJSSpace (c : Char) : Bool :=
  c = ' ' || c = '\t' || c = '\n' || c = '\r' || c = Char.ofNat 11 ||
    c = Char.ofNat 12 || c = Char.ofNat 0xA0 || c = Char.ofNat 0xFEFF

/-- JavaScript `String.trim()`: drop whitespace from both ends. -/
def jsTrim (l : List Char) : List Char :=
  ((l.dropWhile isJSSpace).reverse.dropWhile isJSSpace).reverse

/-- decodeRFC2047 (ImapClient.ts lines 136-156): split the input before each
encoded-word lookahead position; for each piece, if the match regex finds an
encoded word the decoded payload alone is appended (any surrounding literal
text in that piece is discarded, as in the source), otherwise the piece passes
through verbatim; finally the accumulated string is trimmed. -/
def decodeRFC2047 (encoded : String) : String :=
  let parts := splitEWAux [] encoded.toList
  let decoded := parts.flatMap (fun part =>
    match findEncodedWordIn part with
    | none => part
    | some (cs, e, ct) => decodeSegmentPayload cs e ct)
  String.mk (jsTrim decoded)

/-- The declarative reading of "a substring matching
`=?charset?encoding?payload?=`": some decomposition of the string exhibits the
full encoded-word pattern, with non-empty charset and payload groups free of
line terminators and a `B` or `Q` encoding letter — exactly the strings the
match regex of ImapClient.ts line 141 can match. -/
def HasEncodedWord (s : List Char) : Prop :=
  ∃ pre cs e ct post,
    s = pre ++ '=' :: '?' :: (cs ++ '?' :: e :: '?' :: (ct ++ '?' :: '=' :: post)) ∧
    cs ≠ [] ∧ ct ≠ [] ∧ (e = 'B' ∨ e = 'Q') ∧
    (∀ c ∈ cs, isLineTerm c = false) ∧ (∀ c ∈ ct, isLineTerm c = false)

/-- The `disposition` object of a body-structure part: its `type` field and
its parameter map. -/
structure Disposition where
  type : Option String
  params : List (String × String)
deriving Repr, DecidableEq

/-- A non-array body-structure part object as consumed by findAttachments
(ImapClient.ts line 159): MIME type and subtype, the part's own parameter map
(`part.params` — where Content-Type parameters such as `name` live), the
optional disposition object, size, partID (absent or possibly empty) and the
part's content bytes.  An absent `params` object behaves like an empty map, so
it is embedded as a plain list. -/
structure PartInfo where
  type : String
  subtype : String
  params : List (String × String)
  disposition : Option Disposition
  size : Option Nat
  partID : Option String
  content : List Nat
deriving Repr, DecidableEq

/-- The heterogeneous body-structure tree: an element is either a part object
(possibly carrying a `parts` array of children) or a nested array. -/
inductive StructNode where
  | part (info : PartInfo) (parts : Option (List StructNode))
  | nested (items : List StructNode)

/-- First-match association lookup, modelling JavaScript property access on
the parameter objects. -/
def lookupParam (key : String) : List (String × String) → Option String
  | [] => none
  | kv :: rest => if kv.1 = key then some kv.2 else lookupParam key rest

/-- JavaScript truthiness of an optional string: `undefined` and the empty
string are falsy. -/
def jsTruthyStr : Option String → Bool
  | none => false
  | some s => s ≠ ""

/-- JavaScript `a || b` on two optional strings (a falsy left operand — absent
or empty — yields the right operand). -/
def jsOrStr (a b : Option String) : Option String :=
  match a with
  | some s => if s = "" then b else some s
  | none => b

/-- ASCII uppercasing of one character, as JavaScript `toUpperCase` acts on
the ASCII disposition-type strings compared here (a non-ASCII character can
never become an ASCII letter under either function, so the comparison against
the target below is unaffected). -/
def toUpperChar (c : Char) : Char :=
  if 'a' ≤ c && c ≤ 'z' then Char.ofNat (c.toNat - 32) else c

/-- JavaScript `toUpperCase` on a string, at character-list level. -/
def jsToUpper (s : String) : String := String.mk (s.toList.map toUpperChar)

/-- The attachment-qualification test of findAttachments (ImapClient.ts line
165): `part.disposition?.type?.toUpperCase() === ATTACHMENT && part.partID`,
i.e. a case-insensitive disposition-type comparison plus a truthy (non-empty)
partID. -/
def isAttachPart (info : PartInfo) : Bool :=
  (match info.disposition with
   | some d =>
     match d.type with
     | some t => jsToUpper t = "ATTACHMENT"
     | none => false
   | none => false) && jsTruthyStr info.partID

/-- An attachment entry of a Mail record (ImapClient.ts lines 40-46); the
`partID` field is optional because the getMailList mapping stores `undefined`
there. -/
structure MailAttachment where
  filename : Option String
  contentType : String
  size : Nat
  partID : Option String
  content : List Nat
deriving Repr, DecidableEq

/-- The filename resolution of findAttachments (ImapClient.ts lines 166-169):
`part.params?.filename || part.params?.name`, discarded when falsy or the
single character `/`, otherwise passed through decodeRFC2047.  Note the source
reads the part's own `params`, not `disposition.params`. -/
def findAttachmentsFilename (info : PartInfo) : Option String :=
  match jsOrStr (lookupParam "filename" info.params) (lookupParam "name" info.params) with
  | some s => if s ≠ "" && s ≠ "/" then some (decodeRFC2047 s) else none
  | none => none

/-- The descriptor pushed by findAttachments for a qualifying part
(ImapClient.ts lines 170-176). -/
def mkAttachment (info : PartInfo) : MailAttachment :=
  { filename := findAttachmentsFilename info
    contentType := info.type ++ "/" ++ info.subtype
    size := info.size.getD 0
    partID := info.partID
    content := info.content }

mutual

/-- processPart of findAttachments (ImapClient.ts lines 160-183): arrays are
recursed element-wise; an object part is pushed when it qualifies and its
`parts` array, when present, is recursed. -/
def processPart : StructNode → List MailAttachment
  | StructNode.nested items => processParts items
  | StructNode.part info parts =>
    (if isAttachPart info then [mkAttachment info] else []) ++
      (match parts with
       | some ps => processParts ps
       | none => [])

/-- Left-to-right processing of a list of structure nodes (the `forEach`
loops of findAttachments). -/
def processParts : List StructNode → List MailAttachment
  | [] => []
  | n :: rest => processPart n ++ processParts rest

end

/-- findAttachments (ImapClient.ts lines 159-186) as a function from the
structure array to the pushed attachment list. -/
def findAttachments (struct : List StructNode) : List MailAttachment :=
  processParts struct

mutual

/-- All part objects of a structure node in depth-first, left-to-right
order — the reference enumeration against which the walker is characterized. -/
def collectNode : StructNode → List PartInfo
  | StructNode.nested items => collectList items
  | StructNode.part info parts =>
    info :: (match parts with
             | some ps => collectList ps
             | none => [])

/-- All part objects of a node list in depth-first, left-to-right order. -/
def collectList : List StructNode → List PartInfo
  | [] => []
  | n :: rest => collectNode n ++ collectList rest

end

/-- The result of the MIME-parsing collaborator `simpleParser` for one message
body, as read by getMailList (ImapClient.ts lines 222-241): presence of a
messageId, headers, optional subject / from / to / ISO date / text / html, and
pre-extracted attachments (without part ids). -/
structure ParsedMail where
  messageId : Bool
  headers : List (String × List String)
  subject : Option String
  fromText : Option String
  toText : Option String
  date : Option String
  text : Option String
  html : Option String
  attachments : List MailAttachment
deriving Repr, DecidableEq

/-- A Mail record under construction (ImapClient.ts lines 20-47 and 211-214):
created with only `seqNo` and an empty attachment list; the remaining fields
are populated by the attributes and body handlers. -/
structure MailRecord where
  uid : Option Nat
  seqNo : Nat
  headers : List (String × List String)
  subject : Option String
  fromText : Option String
  toText : Option String
  date : Option String
  text : Option String
  html : Option String
  attachments : List MailAttachment
deriving Repr, DecidableEq

/-- The record created when a message event fires (ImapClient.ts lines
211-214): `seqNo` plus an empty attachment list. -/
def initRecord (seqNo : Nat) : MailRecord :=
  { uid := none, seqNo := seqNo, headers := [], subject := none, fromText := none
    toText := none, date := none, text := none, html := none, attachments := [] }

/-- One event of the fetch stream observed by getMailList: a `message` event
creating the per-message record, an `attributes` event carrying the durable
uid, the settlement of one body's `simpleParser` call (`none` = the parser
threw), or a fetch `error` event. -/
inductive FetchEvent where
  | message (seqNo : Nat)
  | attributes (seqNo : Nat) (uid : Nat)
  | bodyEnd (seqNo : Nat) (parsed : Option ParsedMail)
  | fetchError (msg : String)
deriving Repr, DecidableEq

/-- Collector state: the per-message records in creation order (keyed by the
sequence number, accessed by reference in the source), the seqNos pushed onto
`mails` in push order, and the seqNos whose parse failure was logged by
`console.error`. -/
structure CollectorState where
  records : List (Nat × MailRecord)
  pushed : List Nat
  log : List Nat
deriving Repr, DecidableEq

/-- The empty collector state at the start of a fetch. -/
def initCollector : CollectorState := ⟨[], [], []⟩

/-- Record lookup by sequence number. -/
def lookupKey (k : Nat) : List (Nat × MailRecord) → Option MailRecord
  | [] => none
  | kv :: rest => if kv.1 = k then some kv.2 else lookupKey k rest

/-- In-place mutation of the record with the given key, modelling the
JavaScript closures' shared reference to `mail`. -/
def updateRecord (recs : List (Nat × MailRecord)) (k : Nat)
    (f : MailRecord → MailRecord) : List (Nat × MailRecord) :=
  recs.map (fun kv => if kv.1 = k then (kv.1, f kv.2) else kv)

/-- The body-settlement mutation of getMailList (ImapClient.ts lines 222-241):
`mail.uid = parsed.messageId ? fetchUids[mails.length] : seqNo` (note the
index is the CURRENT length of the `mails` array, and an out-of-range index is
`undefined`), field population with `N/A` defaults, and the attachment mapping
that stores `partID: undefined`. -/
def applyParse (fetchUids : List Nat) (pushedCount : Nat) (p : ParsedMail)
    (r : MailRecord) : MailRecord :=
  { r with
    uid := if p.messageId then fetchUids.get? pushedCount else some r.seqNo
    headers := p.headers
    subject := some (p.subject.getD "N/A")
    fromText := some (p.fromText.getD "N/A")
    toText := some (p.toText.getD "N/A")
    date := some (p.date.getD "N/A")
    text := p.text
    html := p.html
    attachments := p.attachments.map (fun att =>
      { filename := att.filename
        contentType := att.contentType
        size := att.size
        partID := none
        content := att.content }) }

/-- One step of the collector (the event handlers of ImapClient.ts lines
210-254): a message event creates a record; an attributes event writes
`mail.uid = attrs.uid`; a failed body parse only logs the sequence number; a
successful body parse mutates the record and pushes it onto `mails`; a fetch
error rejects the promise. -/
def collectorStep (fetchUids : List Nat) (st : CollectorState) :
    FetchEvent → Except String CollectorState
  | FetchEvent.message s =>
    Except.ok { st with records := st.records ++ [(s, initRecord s)] }
  | FetchEvent.attributes s u =>
    Except.ok { st with records := updateRecord st.records s (fun r => { r with uid := some u }) }
  | FetchEvent.bodyEnd s none =>
    Except.ok { st with log := st.log ++ [s] }
  | FetchEvent.bodyEnd s (some p) =>
    if (lookupKey s st.records).isSome then
      Except.ok { st with
        records := updateRecord st.records s (applyParse fetchUids st.pushed.length p)
        pushed := st.pushed ++ [s] }
    else Except.ok st
  | FetchEvent.fetchError msg => Except.error msg

/-- The collector run over a whole event trace. -/
def runCollectorAux (fetchUids : List Nat) :
    CollectorState → List FetchEvent → Except String CollectorState
  | st, [] => Except.ok st
  | st, e :: rest =>
    match collectorStep fetchUids st e with
    | Except.ok st' => runCollectorAux fetchUids st' rest
    | Except.error m => Except.error m

/-- The collector run from the empty state. -/
def runCollector (fetchUids : List Nat) (events : List FetchEvent) :
    Except String CollectorState :=
  runCollectorAux fetchUids initCollector events

/-- The value the promise resolves with: the `mails` array, whose entries are
the (shared, possibly later-mutated) records in push order. -/
def collectorMails (st : CollectorState) : List MailRecord :=
  st.pushed.filterMap (fun k => lookupKey k st.records)

/-- getMailList's per-message assembly (ImapClient.ts lines 205-263) as a
function of the fetched uid list and the event trace: the resolved mail list,
or the rejection message of a fetch error. -/
def getMailListModel (fetchUids : List Nat) (events : List FetchEvent) :
    Except String (List MailRecord) :=
  (runCollector fetchUids events).map collectorMails

/-- Trace wellformedness, reflecting what the transport guarantees getMailList
(node-imap emits a `message` event before that message's `attributes` and
body events, sequence numbers within one fetch are distinct, each message has
at most one body, and no `error` event fires on a successful fetch): `seen`
accumulates announced sequence numbers, `done` those whose body has settled. -/
def wfEvents : List Nat → List Nat → List FetchEvent → Bool
  | _, _, [] => true
  | seen, done, e :: rest =>
    match e with
    | FetchEvent.message s => !seen.contains s && wfEvents (s :: seen) done rest
    | FetchEvent.attributes s _ => seen.contains s && wfEvents seen done rest
    | FetchEvent.bodyEnd s _ =>
      seen.contains s && !done.contains s && wfEvents seen (s :: done) rest
    | FetchEvent.fetchError _ => false

/-- The sequence numbers of failed body parses in a trace. -/
def parseFailSeqs : List FetchEvent → List Nat
  | [] => []
  | FetchEvent.bodyEnd s none :: rest => s :: parseFailSeqs rest
  | _ :: rest => parseFailSeqs rest

/-- The sequence numbers of successful body parses in a trace, in settlement
order. -/
def parseOkSeqs : List FetchEvent → List Nat
  | [] => []
  | FetchEvent.bodyEnd s (some _) :: rest => s :: parseOkSeqs rest
  | _ :: rest => parseOkSeqs rest

/-- The sequence numbers announced by message events in a trace. -/
def msgSeqs : List FetchEvent → List Nat
  | [] => []
  | FetchEvent.message s :: rest => s :: msgSeqs rest
  | _ :: rest => msgSeqs rest

/-- sanitizeFilename's illegal character class (ImapClient.ts line 268). -/
def isFilenameIllegal (c : Char) : Bool :=
  c = '<' || c = '>' || c = ':' || c = ';' || c = '"' || c = '/' || c = '\\' ||
    c = '|' || c = '?' || c = '*'

/-- The global regex replace of sanitizeFilename: every maximal run of illegal
characters becomes a single underscore; the flag records whether the previous
character belonged to a run. -/
def sanitizeAux : Bool → List Char → List Char
  | _, [] => []
  | prevIllegal, c :: rest =>
    if isFilenameIllegal c then
      if prevIllegal then sanitizeAux true rest
      else '_' :: sanitizeAux true rest
    else c :: sanitizeAux false rest

/-- sanitizeFilename (ImapClient.ts lines 267-269): replace illegal runs, then
`substring(0, 100)`. -/
def sanitizeFilename (name : String) : String :=
  String.mk ((sanitizeAux false name.toList).take 100)

/-- JavaScript interpolation of `mail.uid`, which renders `undefined` when the
field was never populated. -/
def optNatToStr : Option Nat → String
  | some n => natToDec n
  | none => "undefined"

/-- downloadAttachments (ImapClient.ts lines 272-297) as the list of
`(filepath, content)` pairs passed to `writeFileSync`, in order: mails with no
attachments are skipped; each attachment's name is its filename when truthy
and not `/`, otherwise `attachment_<uid>_<Date.now()>`; the name is sanitized
and joined to `outputDir`.  Directory creation and the per-file try/catch are
I/O effects with no bearing on the computed paths; `path.join` is modelled as
separator concatenation (its `.`-segment normalization does not affect which
directory a file lands in). -/
def downloadAttachmentsWrites (mails : List MailRecord) (outputDir : String)
    (nowMs : Nat) : List (String × List Nat) :=
  mails.flatMap (fun mail =>
    if mail.attachments.length = 0 then []
    else mail.attachments.map (fun att =>
      let fallbackName := "attachment_" ++ optNatToStr mail.uid ++ "_" ++ natToDec nowMs
      let filename :=
        match att.filename with
        | some s => if s ≠ "" && s ≠ "/" then s else fallbackName
        | none => fallbackName
      (outputDir ++ "/" ++ sanitizeFilename filename, att.content)))

/-- Symbolic settlement time of one in-flight message's body processing: the
absolute time at which its `simpleParser` call settles (success pushes the
record, failure only logs), measured on the same clock as the fetch `end`
event. -/
structure MsgSettle where
  seqNo : Nat
  settleTime : Nat
  parseOk : Bool
deriving Repr, DecidableEq

/-- The completion discipline of ImapClient.ts getMailList (lines 255-260):
`f.once(end)` starts a fixed `setTimeout(..., 100)` and the promise resolves
with whatever sits in `mails` at time `fetchEnd + 100`; a message whose parse
settles later is missing from the resolved array. -/
def imapClientTsResolvedSeqs (fetchEnd : Nat) (msgs : List MsgSettle) : List Nat :=
  (msgs.filter (fun m => m.parseOk && m.settleTime ≤ fetchEnd + 100)).map
    (fun m => m.seqNo)

/-- The completion discipline of the part_000 variant (lines 153-217): a
promise per message is created on its message event and resolved when that
message's processing settles; the `end` handler awaits `Promise.all`, so the
resolution contains every successfully parsed message regardless of how late
it settles. -/
def part000ResolvedSeqs (msgs : List MsgSettle) : List Nat :=
  (msgs.filter (fun m => m.parseOk)).map (fun m => m.seqNo)

/-- The time at which the part_000 variant resolves: not before the fetch end
event and not before the last settlement. -/
def part000ResolveTime (fetchEnd : Nat) (msgs : List MsgSettle) : Nat :=
  (msgs.map (fun m => m.settleTime)).foldr max fetchEnd

/-- Fixture: a successful `simpleParser` result that carries a messageId and
no attachments. -/
def pOkParsed : ParsedMail :=
  { messageId := true, headers := [], subject := some "s", fromText := none
    toText := none, date := none, text := none, html := none, attachments := [] }

/-- Fixture: a successful `simpleParser` result with one attachment. -/
def pAttParsed : ParsedMail :=
  { messageId := true, headers := [], subject := some "s", fromText := none
    toText := none, date := none, text := none, html := none
    attachments := [{ filename := some "cv.pdf", contentType := "application/pdf"
                      size := 2, partID := none, content := [1, 2] }] }

/-- Fixture: a two-message fetch of uids 10 and 20 in which both attributes
events fire first and the bodies settle in reverse order. -/
def c2trace : List FetchEvent :=
  [FetchEvent.message 1, FetchEvent.message 2,
   FetchEvent.attributes 1 10, FetchEvent.attributes 2 20,
   FetchEvent.bodyEnd 2 (some pOkParsed), FetchEvent.bodyEnd 1 (some pOkParsed)]

/-- Fixture: a five-message fetch in which message 3's body fails to parse and
the other four parse successfully. -/
def c5trace : List FetchEvent :=
  [FetchEvent.message 1, FetchEvent.message 2, FetchEvent.message 3,
   FetchEvent.message 4, FetchEvent.message 5,
   FetchEvent.attributes 1 11, FetchEvent.attributes 2 12, FetchEvent.attributes 3 13,
   FetchEvent.attributes 4 14, FetchEvent.attributes 5 15,
   FetchEvent.bodyEnd 1 (some pOkParsed), FetchEvent.bodyEnd 2 (some pOkParsed),
   FetchEvent.bodyEnd 3 none,
   FetchEvent.bodyEnd 4 (some pOkParsed), FetchEvent.bodyEnd 5 (some pOkParsed)]

/-- Fixture: a single-message fetch delivering one attachment. -/
def c10trace : List FetchEvent :=
  [FetchEvent.message 1, FetchEvent.attributes 1 5,
   FetchEvent.bodyEnd 1 (some pAttParsed)]

/-- Fixture: a completed record dated March 5th with one attachment. -/
def marchRecord : MailRecord :=
  { uid := some 1, seqNo := 1, headers := [], subject := some "s"
    fromText := some "f", toText := some "t"
    date := some "2024-03-05T10:00:00.000Z", text := none, html := none
    attachments := [{ filename := some "cv.pdf", contentType := "application/pdf"
                      size := 2, partID := none, content := [1, 2] }] }

/-- Fixture: a qualifying attachment part (capitalized disposition type,
non-empty partID) whose `params` object carries a `name`. -/
def qualPart : PartInfo :=
  { type := "application", subtype := "pdf", params := [("name", "cv.pdf")]
    disposition := some { type := some "Attachment", params := [] }
    size := some 9, partID := some "2", content := [1] }

/-- Fixture: a part whose disposition parameters carry `filename`, while the
part's own `params` object is empty. -/
def dispOnlyPart : PartInfo :=
  { type := "application", subtype := "pdf", params := []
    disposition := some { type := some "attachment"
                          params := [("filename", "spec.pdf")] }
    size := some 100, partID := some "2", content := [7] }

/-- C1: the claim states that getMailList resolves only after every fetched
message's processing has settled, gated by an explicit per-message settlement
signal and never a fixed wall-clock delay, so every successfully parsed
message appears in the result however long its parse takes.  The ImapClient.ts
variant violates this: its promise resolves a fixed 100 ms after the fetch end
event, so a message whose parse settles at time 150 (parse succeeded) is
absent from the resolved list, while the part_000 settlement gate
(Promise.all) returns it and does not resolve before the settlement. -/
theorem getMailList_fixed_delay_vs_settlement_gate :
    imapClientTsResolvedSeqs 0 [⟨1, 150, true⟩] = [] ∧
    part000ResolvedSeqs [⟨1, 150, true⟩] = [1] ∧
    part000ResolveTime 0 [⟨1, 150, true⟩] = 150 := by
  decide

/-- C2: the claim states that a message whose attributes event delivers uid
`u` is returned with `uid = u` regardless of event order.  In the code the
body handler overwrites `mail.uid` with `fetchUids[mails.length]` after the
attributes event has fired: in the traced fetch of uids 10 and 20, message 2's
attributes event delivers 20, yet because message 2's body settles first its
record is returned with uid 10 (and message 1's with 20). -/
theorem getMailList_uid_overwritten_on_out_of_order_parse :
    (getMailListModel [10, 20] c2trace).map (fun l => l.map (fun r => (r.seqNo, r.uid)))
      = Except.ok [(2, some 10), (1, some 20)] ∧
    FetchEvent.attributes 2 20 ∈ c2trace ∧
    wfEvents [] [] c2trace = true := by
  refine ⟨rfl, by decide, by decide⟩

/-- C3 counterexample: the claim states that a limit of 2 on ten matched ids
selects the last two (most recent) ids.  `results.slice(0, limit)` selects the
first two instead. -/
theorem selectFetchUids_takes_first_not_last :
    selectFetchUids [11, 12, 13, 14, 15, 16, 17, 18, 19, 20] (some 2) = [11, 12] ∧
    selectFetchUids [11, 12, 13, 14, 15, 16, 17, 18, 19, 20] (some 2) ≠ [19, 20] := by
  decide

/-- C3 amended: with a limit `l` not exceeding the number of matched ids,
getMailList fetches exactly the PREFIX of the matched id sequence — the first
`l` ids — and with no limit it fetches all matched ids. -/
theorem selectFetchUids_prefix_semantics (results : List Nat) (l : Nat)
    (h : l ≤ results.length) :
    (∃ rest, results = selectFetchUids results (some l) ++ rest) ∧
    (selectFetchUids results (some l)).length = l ∧
    selectFetchUids results none = results := by
  refine ⟨⟨results.drop l, ?_⟩, ?_, rfl⟩
  · exact (List.take_append_drop l results).symm
  · simp [selectFetchUids, List.length_take, Nat.min_eq_left h]

/-- C3 witness: the amended statement at a concrete three-id search with
limit 2. -/
theorem selectFetchUids_prefix_semantics_witness :
    (∃ rest, [4, 5, 6] = selectFetchUids [4, 5, 6] (some 2) ++ rest) ∧
    (selectFetchUids [4, 5, 6] (some 2)).length = 2 ∧
    selectFetchUids [4, 5, 6] none = [4, 5, 6] :=
  selectFetchUids_prefix_semantics [4, 5, 6] 2 (by decide)

/-- C4 counterexample: the claim states that every time range other than
`none` produces exactly one SINCE and exactly one BEFORE term.  For `today` on
March 5th 2024 the produced query is `[ALL, SINCE 05-Mar-2024]`, which
contains no BEFORE term at all. -/
theorem buildSearchCriteria_today_has_no_before_term :
    buildSearchCriteria ⟨2024, 2, 5, 2⟩ { limit := none, timeRange := some TimeRange.today }
      = Except.ok [SearchTerm.all, SearchTerm.since "05-Mar-2024"] ∧
    ([SearchTerm.all, SearchTerm.since "05-Mar-2024"].countP
      (fun t => t.isBefore) ≠ 1) := by
  exact ⟨rfl, by decide⟩

/-- C4 amended: for the six handled time ranges (today, yesterday, thisWeek,
last7days, thisMonth, lastMonth) the produced query contains exactly one SINCE
term and NO BEFORE term (the code builds lower-bounded queries only); the
remaining tags `last30days` and `custom` fail with the invalid-range error;
with no time range the query is exactly `[ALL]` with no date terms. -/
theorem buildSearchCriteria_since_only_shape (now : JSDate) (limit : Option Nat) :
    (buildSearchCriteria now ⟨limit, none⟩ = Except.ok [SearchTerm.all]) ∧
    (∀ tr, tr ≠ TimeRange.last30days → tr ≠ TimeRange.custom →
      ∃ d, buildSearchCriteria now ⟨limit, some tr⟩
          = Except.ok [SearchTerm.all, SearchTerm.since (formatDate d)] ∧
        ([SearchTerm.all, SearchTerm.since (formatDate d)].countP
          (fun t => t.isSince) = 1) ∧
        ([SearchTerm.all, SearchTerm.since (formatDate d)].countP
          (fun t => t.isBefore) = 0)) ∧
    (buildSearchCriteria now ⟨limit, some TimeRange.last30days⟩
      = Except.error "无效的时间范围") ∧
    (buildSearchCriteria now ⟨limit, some TimeRange.custom⟩
      = Except.error "无效的时间范围") := by
  refine ⟨rfl, ?_, rfl, rfl⟩
  intro tr h30 hcu
  cases tr with
  | today =>
    exact ⟨now.civil, rfl, by simp [List.countP, List.countP.go, SearchTerm.isSince],
      by simp [List.countP, List.countP.go, SearchTerm.isBefore]⟩
  | yesterday =>
    exact ⟨setDate now.civil ((now.day : Int) - 1), rfl,
      by simp [List.countP, List.countP.go, SearchTerm.isSince],
      by simp [List.countP, List.countP.go, SearchTerm.isBefore]⟩
  | thisWeek =>
    exact ⟨setDate now.civil ((now.day : Int) - (now.weekday : Int)), rfl,
      by simp [List.countP, List.countP.go, SearchTerm.isSince],
      by simp [List.countP, List.countP.go, SearchTerm.isBefore]⟩
  | last7days =>
    exact ⟨setDate now.civil ((now.day : Int) - 6), rfl,
      by simp [List.countP, List.countP.go, SearchTerm.isSince],
      by simp [List.countP, List.countP.go, SearchTerm.isBefore]⟩
  | thisMonth =>
    exact ⟨mkJSDate now.year (now.month : Int) 1, rfl,
      by simp [List.countP, List.countP.go, SearchTerm.isSince],
      by simp [List.countP, List.countP.go, SearchTerm.isBefore]⟩
  | lastMonth =>
    exact ⟨mkJSDate now.year ((now.month : Int) - 1) 1, rfl,
      by simp [List.countP, List.countP.go, SearchTerm.isSince],
      by simp [List.countP, List.countP.go, SearchTerm.isBefore]⟩
  | last30days => exact absurd rfl h30
  | custom => exact absurd rfl hcu

mutual

/-- The walker's output on one node equals the disposition/partID filter of
the node's depth-first part enumeration. -/
theorem processPart_eq_collect (n : StructNode) :
    processPart n = ((collectNode n).filter isAttachPart).map mkAttachment := by
  cases n with
  | nested items =>
    rw [processPart, collectNode, processParts_eq_collect items]
  | part info parts =>
    cases parts with
    | none =>
      rw [processPart, collectNode]
      cases h : isAttachPart info <;>
        simp [h, processParts, collectList, List.filter, List.map]
    | some ps =>
      rw [processPart, collectNode, processParts_eq_collect ps]
      cases h : isAttachPart info <;> simp [h, List.filter]

/-- The walker's output on a node list equals the disposition/partID filter of
the depth-first part enumeration. -/
theorem processParts_eq_collect (l : List StructNode) :
    processParts l = ((collectList l).filter isAttachPart).map mkAttachment := by
  cases l with
  | nil => rw [processParts, collectList]; rfl
  | cons n rest =>
    rw [processParts, collectList, processPart_eq_collect n,
      processParts_eq_collect rest, List.filter_append, List.map_append]

end

/-- C7 counterexample: the claim states that a qualifying part's filename is
read from the disposition parameters (key `filename`, falling back to
`name`).  For a part whose disposition parameters carry
`filename = spec.pdf` but whose own `params` object is empty, the walker
returns a descriptor with NO filename: the source reads `part.params`, not
`part.disposition.params`. -/
theorem findAttachments_ignores_disposition_params_filename :
    findAttachments [StructNode.part dispOnlyPart none]
      = [{ filename := none, contentType := "application/pdf", size := 100,
           partID := some "2", content := [7] }] ∧
    lookupParam "filename"
      ((dispOnlyPart.disposition.getD { type := none, params := [] }).params)
      = some "spec.pdf" := by
  constructor
  · simp [findAttachments, processParts, processPart, dispOnlyPart, isAttachPart,
      jsToUpper, toUpperChar, jsTruthyStr, mkAttachment, findAttachmentsFilename,
      lookupParam, jsOrStr]
  · decide

/-- C7 amended: the walker's output contains a descriptor for a part if and
only if the part's disposition kind compared case-insensitively equals
`attachment` and the part carries a non-empty partId — precisely, the output
is the depth-first left-to-right enumeration of parts filtered by that test —
and a descriptor's filename is resolved from the part's OWN parameter object
(`params`, not the disposition parameters) under key `filename` falling back
to `name`, with empty and the single character `/` treated as absent and the
encoded-word decoder applied to any present value. -/
theorem findAttachments_filter_characterization (struct : List StructNode) :
    findAttachments struct
      = ((collectList struct).filter isAttachPart).map mkAttachment ∧
    (∀ info, info ∈ collectList struct → isAttachPart info = true →
      mkAttachment info ∈ findAttachments struct) ∧
    (∀ att, att ∈ findAttachments struct →
      ∃ info, info ∈ collectList struct ∧ isAttachPart info = true ∧
        att = mkAttachment info ∧
        att.filename =
          (match jsOrStr (lookupParam "filename" info.params)
              (lookupParam "name" info.params) with
           | some s => if s ≠ "" && s ≠ "/" then some (decodeRFC2047 s) else none
           | none => none)) := by
  refine ⟨processParts_eq_collect struct, ?_, ?_⟩
  · intro info hmem hqual
    rw [findAttachments, processParts_eq_collect]
    exact List.mem_map_of_mem mkAttachment (List.mem_filter.mpr ⟨hmem, hqual⟩)
  · intro att hatt
    rw [findAttachments, processParts_eq_collect] at hatt
    rw [List.mem_map] at hatt
    obtain ⟨info, hinfo, heq⟩ := hatt
    rw [List.mem_filter] at hinfo
    exact ⟨info, hinfo.1, hinfo.2, heq.symm, by rw [← heq]; rfl⟩

/-- C7 witness: the reference enumeration and qualification test agree with
the walker on a concrete qualifying part. -/
theorem findAttachments_filter_characterization_witness :
    mkAttachment qualPart ∈ findAttachments [StructNode.part qualPart none] :=
  (findAttachments_filter_characterization [StructNode.part qualPart none]).2.1
    qualPart (by simp [collectList, collectNode]) (by decide)

/-- No character emitted by the sanitizer's run replacement is a slash: a
slash is in the illegal class, and runs are replaced by underscores. -/
theorem sanitizeAux_no_slash (l : List Char) :
    ∀ b c, c ∈ sanitizeAux b l → c ≠ '/' := by
  induction l with
  | nil => intro b c hc; simp [sanitizeAux] at hc
  | cons x rest ih =>
    intro b c hc
    by_cases hx : isFilenameIllegal x
    · cases b with
      | true =>
        simp [sanitizeAux, hx] at hc
        exact ih true c hc
      | false =>
        simp [sanitizeAux, hx] at hc
        rcases hc with hc | hc
        · subst hc; decide
        · exact ih true c hc
    · simp [sanitizeAux, hx] at hc
      rcases hc with hc | hc
      · subst hc
        intro hslash
        subst hslash
        simp [isFilenameIllegal] at hx
      · exact ih false c hc

/-- C6 counterexample: the claim states that with `classifyByDate = true` a
record dated March 5th has its attachment written under a subfolder named
`03-05`.  The writer has no `classifyByDate` configuration at all: for the
March-5th record it writes the single path `./attachments/cv.pdf` directly
under the output directory, and no `03-05` path is ever written. -/
theorem downloadAttachments_no_date_subfolder :
    downloadAttachmentsWrites [marchRecord] "./attachments" 0
      = [("./attachments/cv.pdf", [1, 2])] ∧
    ("./attachments/03-05/cv.pdf", [1, 2]) ∉
      downloadAttachmentsWrites [marchRecord] "./attachments" 0 := by
  refine ⟨by decide, by decide⟩

/-- C6 amended: the attachment writer takes no `classifyByDate` option; for
every record sequence, output directory and timestamp, every write lands
directly under `outputDir` — its path is `outputDir`, a separator, and a
sanitized filename containing no separator — never in a date-derived
subfolder. -/
theorem downloadAttachments_writes_directly_under_outputDir
    (mails : List MailRecord) (outputDir : String) (nowMs : Nat) (p : String)
    (c : List Nat) (h : (p, c) ∈ downloadAttachmentsWrites mails outputDir nowMs) :
    ∃ fname, p = outputDir ++ "/" ++ fname ∧ ∀ ch ∈ fname.toList, ch ≠ '/' := by
  simp only [downloadAttachmentsWrites, List.mem_flatMap] at h
  obtain ⟨mail, hmail, hmem⟩ := h
  by_cases hempty : mail.attachments.length = 0
  · rw [if_pos hempty] at hmem
    simp at hmem
  · rw [if_neg hempty] at hmem
    rw [List.mem_map] at hmem
    obtain ⟨att, hatt, heq⟩ := hmem
    apply congrArg Prod.fst at heq
    refine ⟨_, heq.symm, ?_⟩
    intro ch hch
    have hch' : ch ∈ (sanitizeAux false _).take 100 := hch
    exact sanitizeAux_no_slash _ false ch (List.take_subset 100 _ hch')

/-- C6 witness: the amended statement applied to the concrete March-5th
record's single write. -/
theorem downloadAttachments_writes_directly_under_outputDir_witness :
    ∃ fname, "./attachments/cv.pdf" = "./attachments" ++ "/" ++ fname ∧
      ∀ ch ∈ fname.toList, ch ≠ '/' :=
  downloadAttachments_writes_directly_under_outputDir [marchRecord] "./attachments" 0
    "./attachments/cv.pdf" [1, 2] (by decide)

/-- A digit character produced from a value below ten is a decimal digit. -/
theorem digitChar_isDigit (n : Nat) (h : n < 10) : (digitChar n).isDigit = true := by
  interval_cases n <;> decide

/-- Every character produced by the decimal converter is a decimal digit. -/
theorem natToDecAux_digits (fuel : Nat) :
    ∀ n c, c ∈ natToDecAux fuel n → c.isDigit = true := by
  induction fuel with
  | zero => intro n c hc; simp [natToDecAux] at hc
  | succ f ih =>
    intro n c hc
    by_cases h : n < 10
    · simp [natToDecAux, h] at hc
      subst hc
      exact digitChar_isDigit n h
    · simp [natToDecAux, h] at hc
      rcases hc with hc | hc
      · exact ih _ _ hc
      · subst hc
        exact digitChar_isDigit _ (Nat.mod_lt _ (by norm_num))

/-- The decimal converter produces `k + 1` characters for a number with
`k + 1` decimal digits, given enough fuel. -/
theorem natToDecAux_length (k : Nat) :
    ∀ fuel n, 10 ^ k ≤ n → n < 10 ^ (k + 1) → k < fuel →
      (natToDecAux fuel n).length = k + 1 := by
  induction k with
  | zero =>
    intro fuel n h1 h2 hf
    cases fuel with
    | zero => omega
    | succ f =>
      have h10 : n < 10 := by simpa using h2
      simp [natToDecAux, h10]
  | succ k ih =>
    intro fuel n h1 h2 hf
    cases fuel with
    | zero => omega
    | succ f =>
      have hten : (10 : Nat) ≤ 10 ^ (k + 1) := by
        calc (10 : Nat) = 10 ^ 1 := (pow_one 10).symm
        _ ≤ 10 ^ (k + 1) := Nat.pow_le_pow_right (by norm_num) (by omega)
      have h10 : ¬ n < 10 := by omega
      have hlow : 10 ^ k ≤ n / 10 := by
        rw [Nat.le_div_iff_mul_le (by norm_num)]
        calc 10 ^ k * 10 = 10 ^ (k + 1) := by ring
        _ ≤ n := h1
      have hhigh : n / 10 < 10 ^ (k + 1) := by
        rw [Nat.div_lt_iff_lt_mul (by norm_num)]
        calc n < 10 ^ (k + 1 + 1) := h2
        _ = 10 ^ (k + 1) * 10 := by ring
      simp [natToDecAux, h10, ih f (n / 10) hlow hhigh (by omega)]

/-- The string built from a character list has that list's length. -/
theorem length_mkStr (l : List Char) : (String.mk l).length = l.length := rfl

/-- Appending strings appends their character lists. -/
theorem mkStr_append (l1 l2 : List Char) :
    String.mk l1 ++ String.mk l2 = String.mk (l1 ++ l2) := rfl

/-- The character list of a string built from a character list. -/
theorem toList_mkStr (l : List Char) : (String.mk l).toList = l := rfl

/-- The day component of the query date: always exactly two decimal digits
for a JavaScript day-of-month. -/
theorem padded_day_shape (day : Nat) (h1 : 1 ≤ day) (h2 : day ≤ 31) :
    (padStart2 (natToDec day)).length = 2 ∧
    ∀ c ∈ (padStart2 (natToDec day)).toList, c.isDigit = true := by
  by_cases h : day < 10
  · have hlen : (natToDecAux (day + 1) day).length = 1 :=
      natToDecAux_length 0 (day + 1) day (by omega) (by simpa using h) (by omega)
    have hlen' : (natToDec day).length = 1 := by
      simp [natToDec, length_mkStr, hlen]
    have heq : padStart2 (natToDec day)
        = String.mk ('0' :: natToDecAux (day + 1) day) := by
      simp only [padStart2]
      rw [if_pos (by omega), hlen']
      rfl
    rw [heq]
    refine ⟨by simp [length_mkStr, hlen], ?_⟩
    intro c hc
    rw [toList_mkStr] at hc
    rcases List.mem_cons.mp hc with hc | hc
    · subst hc; decide
    · exact natToDecAux_digits _ _ _ hc
  · have hlen : (natToDecAux (day + 1) day).length = 2 :=
      natToDecAux_length 1 (day + 1) day (by simpa using Nat.le_of_not_lt h)
        (by simp; omega) (by omega)
    have hlen' : (natToDec day).length = 2 := by
      simp [natToDec, length_mkStr, hlen]
    have heq : padStart2 (natToDec day) = natToDec day := by
      simp only [padStart2]
      rw [if_neg (by omega)]
    rw [heq]
    refine ⟨hlen', ?_⟩
    intro c hc
    rw [show (natToDec day).toList = natToDecAux (day + 1) day from rfl] at hc
    exact natToDecAux_digits _ _ _ hc

/-- The year component of the query date: exactly four decimal digits when
the year lies between 1000 and 9999. -/
theorem year_shape (y : Int) (h1 : (1000 : Int) ≤ y) (h2 : y ≤ 9999) :
    (intToDec y).length = 4 ∧ ∀ c ∈ (intToDec y).toList, c.isDigit = true := by
  have hneg : ¬ y < 0 := by omega
  have hlow : (1000 : Nat) ≤ y.toNat := by omega
  have hhigh : y.toNat < 10000 := by omega
  have hlen : (natToDecAux (y.toNat + 1) y.toNat).length = 4 :=
    natToDecAux_length 3 (y.toNat + 1) y.toNat (by norm_num; omega)
      (by norm_num; omega) (by omega)
  have heq : intToDec y = String.mk (natToDecAux (y.toNat + 1) y.toNat) := by
    simp only [intToDec]
    rw [if_neg hneg]
    rfl
  rw [heq]
  refine ⟨by simp [length_mkStr, hlen], ?_⟩
  intro c hc
  rw [toList_mkStr] at hc
  exact natToDecAux_digits _ _ _ hc

/-- C8 counterexample: the claim states that the formatter yields a four-digit
year for every Date value.  A JavaScript Date in year 1 (reachable via
`setFullYear`) formats as `05-Mar-1`, whose year part has a single digit (the
full string has length 8, not the 11 of `DD-MMM-YYYY`). -/
theorem formatDate_year_not_four_digits :
    formatDate ⟨1, 2, 5⟩ = "05-Mar-1" ∧ ("05-Mar-1" : String).length ≠ 11 := by
  exact ⟨rfl, by decide⟩

/-- C8 amended: for every Date (day 1-31, month 0-11) whose year lies in
1000-9999 — which holds for every date the enclosing program ever formats —
the formatter produces exactly `DD-MMM-YYYY`: a two-digit zero-padded decimal
day, a three-letter capitalized English month abbreviation from the table, and
a four-digit decimal year; the year is rendered unpadded in general.
Moreover every date term placed in a SearchQuery is a SINCE term carrying
exactly a `formatDate` rendering. -/
theorem formatDate_shape :
    (∀ d : CivilDate, 1 ≤ d.day → d.day ≤ 31 → d.month ≤ 11 →
      (1000 : Int) ≤ d.year → d.year ≤ 9999 →
      ∃ dd mm yy, formatDate d = dd ++ "-" ++ mm ++ "-" ++ yy ∧
        dd.length = 2 ∧ (∀ c ∈ dd.toList, c.isDigit = true) ∧
        mm ∈ monthNames ∧ mm.length = 3 ∧
        yy.length = 4 ∧ (∀ c ∈ yy.toList, c.isDigit = true)) ∧
    (∀ now fp q, buildSearchCriteria now fp = Except.ok q →
      ∀ t ∈ q, t = SearchTerm.all ∨ ∃ d, t = SearchTerm.since (formatDate d)) := by
  constructor
  · intro d hd1 hd2 hm hy1 hy2
    refine ⟨padStart2 (natToDec d.day), monthNames.getD d.month "undefined",
      intToDec d.year, rfl, (padded_day_shape d.day hd1 hd2).1,
      (padded_day_shape d.day hd1 hd2).2, ?_, ?_,
      (year_shape d.year hy1 hy2).1, (year_shape d.year hy1 hy2).2⟩
    · interval_cases hm' : d.month <;> decide
    · interval_cases hm' : d.month <;> decide
  · intro now fp q h t ht
    rcases fp with ⟨lim, trOpt⟩
    cases trOpt with
    | none =>
      simp [buildSearchCriteria] at h
      subst h
      simp at ht
      subst ht
      exact Or.inl rfl
    | some tr =>
      cases tr <;> simp [buildSearchCriteria] at h <;> try subst h
      all_goals
        simp at ht
      case today =>
        rcases ht with ht | ht
        · exact Or.inl ht
        · exact Or.inr ⟨_, ht⟩
      case yesterday =>
        rcases ht with ht | ht
        · exact Or.inl ht
        · exact Or.inr ⟨_, ht⟩
      case thisWeek =>
        rcases ht with ht | ht
        · exact Or.inl ht
        · exact Or.inr ⟨_, ht⟩
      case last7days =>
        rcases ht with ht | ht
        · exact Or.inl ht
        · exact Or.inr ⟨_, ht⟩
      case thisMonth =>
        rcases ht with ht | ht
        · exact Or.inl ht
        · exact Or.inr ⟨_, ht⟩
      case lastMonth =>
        rcases ht with ht | ht
        · exact Or.inl ht
        · exact Or.inr ⟨_, ht⟩

/-- C8 witness: the amended format statement at March 5th 2024. -/
theorem formatDate_shape_witness :
    ∃ dd mm yy, formatDate ⟨2024, 2, 5⟩ = dd ++ "-" ++ mm ++ "-" ++ yy ∧
      dd.length = 2 ∧ (∀ c ∈ dd.toList, c.isDigit = true) ∧
      mm ∈ monthNames ∧ mm.length = 3 ∧
      yy.length = 4 ∧ (∀ c ∈ yy.toList, c.isDigit = true) :=
  formatDate_shape.1 ⟨2024, 2, 5⟩ (by decide) (by decide) (by decide)
    (by decide) (by decide)

/-- Record lookup distributes over appending record lists. -/
theorem lookupKey_append (k : Nat) (l1 l2 : List (Nat × MailRecord)) :
    lookupKey k (l1 ++ l2)
      = match lookupKey k l1 with
        | some v => some v
        | none => lookupKey k l2 := by
  induction l1 with
  | nil => simp [lookupKey]
  | cons kv rest ih =>
    by_cases h : kv.1 = k
    · simp [lookupKey, h]
    · simp [lookupKey, h, ih]

/-- Record lookup after an in-place update: the updated key's record is
mapped, every other key is untouched. -/
theorem lookupKey_update (k s : Nat) (f : MailRecord → MailRecord)
    (l : List (Nat × MailRecord)) :
    lookupKey k (updateRecord l s f)
      = if s = k then (lookupKey k l).map f else lookupKey k l := by
  induction l with
  | nil => simp [lookupKey, updateRecord]
  | cons kv rest ih =>
    simp only [updateRecord, List.map_cons]
    by_cases hks : kv.1 = s
    · rw [if_pos hks]
      by_cases hkk : kv.1 = k
      · have hsk : s = k := by rw [← hks, hkk]
        rw [if_pos hsk]
        simp [lookupKey, hkk]
      · have hsk : ¬ s = k := fun h => hkk (hks.trans h)
        rw [if_neg hsk]
        simp only [lookupKey, hkk, if_false]
        have ih' := ih
        rw [if_neg hsk] at ih'
        simpa [updateRecord] using ih'
    · rw [if_neg hks]
      by_cases hkk : kv.1 = k
      · by_cases hsk : s = k
        · exact absurd (hsk ▸ hkk : kv.1 = s) hks
        · rw [if_neg hsk]
          simp [lookupKey, hkk]
      · simp only [lookupKey, hkk, if_false]
        simpa [updateRecord] using ih

/-- applyParse never changes the record's sequence number. -/
theorem applyParse_seqNo (fetchUids : List Nat) (n : Nat) (p : ParsedMail)
    (r : MailRecord) : (applyParse fetchUids n p r).seqNo = r.seqNo := rfl

/-- Every attachment written into a record by applyParse carries no partID
(the `partID: undefined` mapping of ImapClient.ts line 238). -/
theorem applyParse_attachments_partID (fetchUids : List Nat) (n : Nat)
    (p : ParsedMail) (r : MailRecord) :
    ∀ a ∈ (applyParse fetchUids n p r).attachments, a.partID = none := by
  intro a ha
  simp only [applyParse, List.mem_map] at ha
  obtain ⟨att, _, heq⟩ := ha
  rw [← heq]

/-- One collector step preserves the invariant that every stored attachment
has no partID. -/
theorem step_preserves_attsNone (fetchUids : List Nat) (st st' : CollectorState)
    (e : FetchEvent) (hstep : collectorStep fetchUids st e = Except.ok st')
    (hinv : ∀ k r, lookupKey k st.records = some r →
      ∀ a ∈ r.attachments, a.partID = none) :
    ∀ k r, lookupKey k st'.records = some r → ∀ a ∈ r.attachments, a.partID = none := by
  cases e with
  | message s =>
    simp only [collectorStep, Except.ok.injEq] at hstep
    subst hstep
    intro k r hk
    rw [lookupKey_append] at hk
    cases hl : lookupKey k st.records with
    | some v =>
      rw [hl] at hk
      simp at hk
      subst hk
      exact hinv k _ hl
    | none =>
      rw [hl] at hk
      simp only at hk
      by_cases hsk : s = k
      · simp [lookupKey, hsk] at hk
        subst hk
        intro a ha
        simp [initRecord] at ha
      · simp [lookupKey, hsk] at hk
  | attributes s u =>
    simp only [collectorStep, Except.ok.injEq] at hstep
    subst hstep
    intro k r hk
    rw [lookupKey_update] at hk
    by_cases hsk : s = k
    · rw [if_pos hsk] at hk
      cases hl : lookupKey k st.records with
      | some v =>
        rw [hl] at hk
        simp at hk
        subst hk
        intro a ha
        exact hinv k v hl a ha
      | none => rw [hl] at hk; simp at hk
    · rw [if_neg hsk] at hk
      exact hinv k r hk
  | bodyEnd s parsed =>
    cases parsed with
    | none =>
      simp only [collectorStep, Except.ok.injEq] at hstep
      subst hstep
      exact hinv
    | some p =>
      simp only [collectorStep] at hstep
      by_cases hsome : (lookupKey s st.records).isSome = true
      · rw [if_pos hsome] at hstep
        simp only [Except.ok.injEq] at hstep
        subst hstep
        intro k r hk
        rw [lookupKey_update] at hk
        by_cases hsk : s = k
        · rw [if_pos hsk] at hk
          cases hl : lookupKey k st.records with
          | some v =>
            rw [hl] at hk
            simp at hk
            subst hk
            exact applyParse_attachments_partID fetchUids _ p v
          | none => rw [hl] at hk; simp at hk
        · rw [if_neg hsk] at hk
          exact hinv k r hk
      · rw [if_neg hsome] at hstep
        simp only [Except.ok.injEq] at hstep
        subst hstep
        exact hinv
  | fetchError msg => simp [collectorStep] at hstep

/-- The collector run preserves the no-partID invariant. -/
theorem runAux_preserves_attsNone (fetchUids : List Nat) (events : List FetchEvent) :
    ∀ st st', runCollectorAux fetchUids st events = Except.ok st' →
      (∀ k r, lookupKey k st.records = some r →
        ∀ a ∈ r.attachments, a.partID = none) →
      ∀ k r, lookupKey k st'.records = some r →
        ∀ a ∈ r.attachments, a.partID = none := by
  induction events with
  | nil =>
    intro st st' hrun hinv
    simp only [runCollectorAux, Except.ok.injEq] at hrun
    subst hrun
    exact hinv
  | cons e rest ih =>
    intro st st' hrun hinv
    rw [runCollectorAux] at hrun
    cases hstep : collectorStep fetchUids st e with
    | ok st1 =>
      rw [hstep] at hrun
      exact ih st1 st' hrun (step_preserves_attsNone fetchUids st st1 e hstep hinv)
    | error m => rw [hstep] at hrun; simp at hrun

/-- C10: every attachment of every Mail record returned by the ImapClient.ts
getMailList has no partID: the attachments come exclusively from the
MIME-parsing collaborator's output, which getMailList stores with
`partID: undefined`, and the structure walker findAttachments is never invoked
on the fetched structures, so no populated partId ever reaches the result. -/
theorem getMailList_attachment_partID_none
    (fetchUids : List Nat) (events : List FetchEvent) (res : List MailRecord)
    (h : getMailListModel fetchUids events = Except.ok res)
    (r : MailRecord) (hr : r ∈ res) (a : MailAttachment) (ha : a ∈ r.attachments) :
    a.partID = none := by
  simp only [getMailListModel, runCollector] at h
  cases hrun : runCollectorAux fetchUids initCollector events with
  | ok st =>
    rw [hrun] at h
    simp only [Except.map, Except.ok.injEq] at h
    subst h
    simp only [collectorMails, List.mem_filterMap] at hr
    obtain ⟨k, _, hk⟩ := hr
    exact runAux_preserves_attsNone fetchUids events initCollector st hrun
      (by intro k' r' hk'; simp [initCollector, lookupKey] at hk') k r hk a ha
  | error m => rw [hrun] at h; simp [Except.map] at h

/-- In a wellformed trace, a sequence number whose body already settled never
sees another body event. -/
theorem wf_done_no_bodyEnd (events : List FetchEvent) :
    ∀ seen done s x, wfEvents seen done events = true → s ∈ done →
      FetchEvent.bodyEnd s x ∉ events := by
  induction events with
  | nil => intro seen done s x _ _; simp
  | cons e rest ih =>
    intro seen done s x hwf hs hmem
    cases e with
    | message s' =>
      simp only [wfEvents, Bool.and_eq_true] at hwf
      rcases List.mem_cons.mp hmem with h | h
      · cases h
      · exact ih _ _ s x hwf.2 hs h
    | attributes s' u =>
      simp only [wfEvents, Bool.and_eq_true] at hwf
      rcases List.mem_cons.mp hmem with h | h
      · cases h
      · exact ih _ _ s x hwf.2 hs h
    | bodyEnd s' parsed =>
      simp only [wfEvents, Bool.and_eq_true] at hwf
      rcases List.mem_cons.mp hmem with h | h
      · injection h with h1 h2
        subst h1
        have hnd : s ∉ done := by
          have := hwf.1.2
          simp at this
          exact this
        exact hnd hs
      · exact ih _ _ s x hwf.2 (List.mem_cons_of_mem s' hs) h
    | fetchError m =>
      simp only [wfEvents] at hwf
      cases hwf

/-- A failed body settlement contributes its sequence number to the log
projection. -/
theorem mem_parseFailSeqs (events : List FetchEvent) :
    ∀ s, FetchEvent.bodyEnd s none ∈ events → s ∈ parseFailSeqs events := by
  induction events with
  | nil => intro s h; simp at h
  | cons e rest ih =>
    intro s h
    cases e with
    | bodyEnd s' parsed =>
      rcases List.mem_cons.mp h with heq | hmem
      · injection heq with h1 h2
        subst h1
        subst h2
        simp [parseFailSeqs]
      · cases parsed with
        | none =>
          simp only [parseFailSeqs]
          exact List.mem_cons_of_mem s' (ih s hmem)
        | some p =>
          simpa only [parseFailSeqs] using ih s hmem
    | message s' =>
      rcases List.mem_cons.mp h with heq | hmem
      · cases heq
      · simpa only [parseFailSeqs] using ih s hmem
    | attributes s' u =>
      rcases List.mem_cons.mp h with heq | hmem
      · cases heq
      · simpa only [parseFailSeqs] using ih s hmem
    | fetchError m =>
      rcases List.mem_cons.mp h with heq | hmem
      · cases heq
      · simpa only [parseFailSeqs] using ih s hmem

/-- A successful body settlement contributes its sequence number to the push
projection. -/
theorem mem_parseOkSeqs (events : List FetchEvent) :
    ∀ s p, FetchEvent.bodyEnd s (some p) ∈ events → s ∈ parseOkSeqs events := by
  induction events with
  | nil => intro s p h; simp at h
  | cons e rest ih =>
    intro s p h
    cases e with
    | bodyEnd s' parsed =>
      rcases List.mem_cons.mp h with heq | hmem
      · injection heq with h1 h2
        subst h1
        subst h2
        simp [parseOkSeqs]
      · cases parsed with
        | some q =>
          simp only [parseOkSeqs]
          exact List.mem_cons_of_mem s' (ih s p hmem)
        | none =>
          simpa only [parseOkSeqs] using ih s p hmem
    | message s' =>
      rcases List.mem_cons.mp h with heq | hmem
      · cases heq
      · simpa only [parseOkSeqs] using ih s p hmem
    | attributes s' u =>
      rcases List.mem_cons.mp h with heq | hmem
      · cases heq
      · simpa only [parseOkSeqs] using ih s p hmem
    | fetchError m =>
      rcases List.mem_cons.mp h with heq | hmem
      · cases heq
      · simpa only [parseOkSeqs] using ih s p hmem

/-- Every sequence number in the push projection comes from a successful body
settlement. -/
theorem parseOkSeqs_mem (events : List FetchEvent) :
    ∀ s, s ∈ parseOkSeqs events → ∃ p, FetchEvent.bodyEnd s (some p) ∈ events := by
  induction events with
  | nil => intro s h; simp [parseOkSeqs] at h
  | cons e rest ih =>
    intro s h
    cases e with
    | bodyEnd s' parsed =>
      cases parsed with
      | some q =>
        simp only [parseOkSeqs] at h
        rcases List.mem_cons.mp h with heq | hmem
        · subst heq
          exact ⟨q, List.mem_cons_self _ _⟩
        · obtain ⟨p, hp⟩ := ih s hmem
          exact ⟨p, List.mem_cons_of_mem _ hp⟩
      | none =>
        simp only [parseOkSeqs] at h
        obtain ⟨p, hp⟩ := ih s h
        exact ⟨p, List.mem_cons_of_mem _ hp⟩
    | message s' =>
      simp only [parseOkSeqs] at h
      obtain ⟨p, hp⟩ := ih s h
      exact ⟨p, List.mem_cons_of_mem _ hp⟩
    | attributes s' u =>
      simp only [parseOkSeqs] at h
      obtain ⟨p, hp⟩ := ih s h
      exact ⟨p, List.mem_cons_of_mem _ hp⟩
    | fetchError m =>
      simp only [parseOkSeqs] at h
      obtain ⟨p, hp⟩ := ih s h
      exact ⟨p, List.mem_cons_of_mem _ hp⟩

/-- In a wellformed trace a message whose body failed to parse never also
appears in the push projection: each message has at most one body event. -/
theorem wf_fail_not_parseOk (events : List FetchEvent) :
    ∀ seen done s, wfEvents seen done events = true →
      FetchEvent.bodyEnd s none ∈ events → s ∉ parseOkSeqs events := by
  induction events with
  | nil => intro seen done s _ h; simp at h
  | cons e rest ih =>
    intro seen done s hwf hfail hok
    cases e with
    | message s' =>
      simp only [wfEvents, Bool.and_eq_true] at hwf
      rcases List.mem_cons.mp hfail with heq | hmem
      · cases heq
      · exact ih _ _ s hwf.2 hmem (by simpa only [parseOkSeqs] using hok)
    | attributes s' u =>
      simp only [wfEvents, Bool.and_eq_true] at hwf
      rcases List.mem_cons.mp hfail with heq | hmem
      · cases heq
      · exact ih _ _ s hwf.2 hmem (by simpa only [parseOkSeqs] using hok)
    | bodyEnd s' parsed =>
      simp only [wfEvents, Bool.and_eq_true] at hwf
      cases parsed with
      | none =>
        rcases List.mem_cons.mp hfail with heq | hmem
        · injection heq with h1 h2
          subst h1
          simp only [parseOkSeqs] at hok
          obtain ⟨p, hp⟩ := parseOkSeqs_mem rest s hok
          exact wf_done_no_bodyEnd rest _ _ s (some p) hwf.2
            (List.mem_cons_self s _) hp
        · exact ih _ _ s hwf.2 hmem (by simpa only [parseOkSeqs] using hok)
      | some q =>
        rcases List.mem_cons.mp hfail with heq | hmem
        · cases heq
        · have hsne : s ≠ s' := by
            intro he
            subst he
            exact wf_done_no_bodyEnd rest _ _ s none hwf.2
              (List.mem_cons_self s _) hmem
          simp only [parseOkSeqs] at hok
          rcases List.mem_cons.mp hok with hok | hok
          · exact hsne hok
          · exact ih _ _ s hwf.2 hmem hok
    | fetchError m =>
      simp only [wfEvents] at hwf
      cases hwf

/-- An existing record survives appending new records. -/
theorem lookupKey_append_some (k : Nat) (l1 l2 : List (Nat × MailRecord))
    (v : MailRecord) (h : lookupKey k l1 = some v) :
    lookupKey k (l1 ++ l2) = some v := by
  rw [lookupKey_append, h]

/-- Lookup falls through to the appended records when the key is absent. -/
theorem lookupKey_append_none (k : Nat) (l1 l2 : List (Nat × MailRecord))
    (h : lookupKey k l1 = none) :
    lookupKey k (l1 ++ l2) = lookupKey k l2 := by
  rw [lookupKey_append, h]

/-- Mapping a function over an optional record preserves presence. -/
theorem isSome_map (f : MailRecord → MailRecord) (o : Option MailRecord) :
    (o.map f).isSome = o.isSome := by
  cases o <;> rfl

/-- The collector run on a wellformed trace never rejects; its log is exactly
the failed-parse projection appended to the prior log, its `mails` push list
is exactly the successful-parse projection appended to the prior pushes,
records keep their creation sequence numbers, and every pushed key still
resolves to a record. -/
theorem runAux_spec (fetchUids : List Nat) (events : List FetchEvent) :
    ∀ seen done st,
      wfEvents seen done events = true →
      (∀ k, (lookupKey k st.records).isSome = true ↔ k ∈ seen) →
      (∀ k r, lookupKey k st.records = some r → r.seqNo = k) →
      (∀ k, k ∈ st.pushed → (lookupKey k st.records).isSome = true) →
      ∃ st', runCollectorAux fetchUids st events = Except.ok st' ∧
        st'.log = st.log ++ parseFailSeqs events ∧
        st'.pushed = st.pushed ++ parseOkSeqs events ∧
        (∀ k r, lookupKey k st'.records = some r → r.seqNo = k) ∧
        (∀ k, k ∈ st'.pushed → (lookupKey k st'.records).isSome = true) := by
  induction events with
  | nil =>
    intro seen done st _ _ hseq hpush
    exact ⟨st, rfl, by simp [parseFailSeqs], by simp [parseOkSeqs], hseq, hpush⟩
  | cons e rest ih =>
    intro seen done st hwf hkeys hseq hpush
    cases e with
    | message s =>
      simp only [wfEvents, Bool.and_eq_true] at hwf
      obtain ⟨hnot, hwfrest⟩ := hwf
      have hkeys1 : ∀ k,
          (lookupKey k (st.records ++ [(s, initRecord s)])).isSome = true
            ↔ k ∈ s :: seen := by
        intro k
        cases hl : lookupKey k st.records with
        | some v =>
          rw [lookupKey_append_some k _ _ v hl]
          simp only [Option.isSome_some, true_iff]
          exact List.mem_cons_of_mem s ((hkeys k).mp (by rw [hl]; rfl))
        | none =>
          rw [lookupKey_append_none k _ _ hl]
          simp only [lookupKey]
          by_cases hsk : s = k
          · subst hsk
            simp
          · rw [if_neg hsk]
            constructor
            · intro hx
              exact absurd hx (by decide)
            · intro hmem
              exfalso
              rcases List.mem_cons.mp hmem with h | h
              · exact hsk h.symm
              · have hx := (hkeys k).mpr h
                rw [hl] at hx
                cases hx
      have hseq1 : ∀ k r,
          lookupKey k (st.records ++ [(s, initRecord s)]) = some r → r.seqNo = k := by
        intro k r hk
        cases hl : lookupKey k st.records with
        | some v =>
          rw [lookupKey_append_some k _ _ v hl] at hk
          injection hk with hk
          rw [← hk]
          exact hseq k v hl
        | none =>
          rw [lookupKey_append_none k _ _ hl] at hk
          simp only [lookupKey] at hk
          by_cases hsk : s = k
          · rw [if_pos hsk] at hk
            injection hk with hk
            rw [← hk]
            exact hsk ▸ rfl
          · rw [if_neg hsk] at hk
            cases hk
      have hpush1 : ∀ k, k ∈ st.pushed →
          (lookupKey k (st.records ++ [(s, initRecord s)])).isSome = true := by
        intro k hk
        cases hl : lookupKey k st.records with
        | some v => rw [lookupKey_append_some k _ _ v hl]; rfl
        | none =>
          have hx := hpush k hk
          rw [hl] at hx
          cases hx
      obtain ⟨st', hrun, hlog, hpushed, hseq', hpush'⟩ :=
        ih (s :: seen) done { st with records := st.records ++ [(s, initRecord s)] }
          hwfrest hkeys1 hseq1 hpush1
      refine ⟨st', ?_, ?_, ?_, hseq', hpush'⟩
      · rw [runCollectorAux]
        simp only [collectorStep]
        exact hrun
      · simpa [parseFailSeqs] using hlog
      · simpa [parseOkSeqs] using hpushed
    | attributes s u =>
      simp only [wfEvents, Bool.and_eq_true] at hwf
      obtain ⟨hseen, hwfrest⟩ := hwf
      have hkeys1 : ∀ k,
          (lookupKey k (updateRecord st.records s
            (fun r => { r with uid := some u }))).isSome = true ↔ k ∈ seen := by
        intro k
        rw [lookupKey_update]
        by_cases hsk : s = k
        · rw [if_pos hsk, isSome_map]
          exact hkeys k
        · rw [if_neg hsk]
          exact hkeys k
      have hseq1 : ∀ k r,
          lookupKey k (updateRecord st.records s
            (fun r => { r with uid := some u })) = some r → r.seqNo = k := by
        intro k r hk
        rw [lookupKey_update] at hk
        by_cases hsk : s = k
        · rw [if_pos hsk] at hk
          cases hl : lookupKey k st.records with
          | some v =>
            rw [hl] at hk
            simp only [Option.map_some'] at hk
            injection hk with hk
            rw [← hk]
            exact hseq k v hl
          | none =>
            rw [hl] at hk
            cases hk
        · rw [if_neg hsk] at hk
          exact hseq k r hk
      have hpush1 : ∀ k, k ∈ st.pushed →
          (lookupKey k (updateRecord st.records s
            (fun r => { r with uid := some u }))).isSome = true := by
        intro k hk
        exact (hkeys1 k).mpr ((hkeys k).mp (hpush k hk))
      obtain ⟨st', hrun, hlog, hpushed, hseq', hpush'⟩ :=
        ih seen done
          { st with records := updateRecord st.records s (fun r => { r with uid := some u }) }
          hwfrest hkeys1 hseq1 hpush1
      refine ⟨st', ?_, ?_, ?_, hseq', hpush'⟩
      · rw [runCollectorAux]
        simp only [collectorStep]
        exact hrun
      · simpa [parseFailSeqs] using hlog
      · simpa [parseOkSeqs] using hpushed
    | bodyEnd s parsed =>
      simp only [wfEvents, Bool.and_eq_true] at hwf
      obtain ⟨⟨hseen, hnotdone⟩, hwfrest⟩ := hwf
      have hsmem : s ∈ seen := by simpa using hseen
      have hsome : (lookupKey s st.records).isSome = true := (hkeys s).mpr hsmem
      cases parsed with
      | none =>
        obtain ⟨st', hrun, hlog, hpushed, hseq', hpush'⟩ :=
          ih seen (s :: done) { st with log := st.log ++ [s] }
            hwfrest hkeys hseq hpush
        refine ⟨st', ?_, ?_, ?_, hseq', hpush'⟩
        · rw [runCollectorAux]
          simp only [collectorStep]
          exact hrun
        · rw [hlog]
          simp [parseFailSeqs]
        · simpa [parseOkSeqs] using hpushed
      | some p =>
        have hkeys1 : ∀ k,
            (lookupKey k (updateRecord st.records s
              (applyParse fetchUids st.pushed.length p))).isSome = true ↔ k ∈ seen := by
          intro k
          rw [lookupKey_update]
          by_cases hsk : s = k
          · rw [if_pos hsk, isSome_map]
            exact hkeys k
          · rw [if_neg hsk]
            exact hkeys k
        have hseq1 : ∀ k r,
            lookupKey k (updateRecord st.records s
              (applyParse fetchUids st.pushed.length p)) = some r → r.seqNo = k := by
          intro k r hk
          rw [lookupKey_update] at hk
          by_cases hsk : s = k
          · rw [if_pos hsk] at hk
            cases hl : lookupKey k st.records with
            | some v =>
              rw [hl] at hk
              simp only [Option.map_some'] at hk
              injection hk with hk
              rw [← hk, applyParse_seqNo]
              exact hseq k v hl
            | none =>
              rw [hl] at hk
              cases hk
          · rw [if_neg hsk] at hk
            exact hseq k r hk
        have hpush1 : ∀ k, k ∈ st.pushed ++ [s] →
            (lookupKey k (updateRecord st.records s
              (applyParse fetchUids st.pushed.length p))).isSome = true := by
          intro k hk
          rcases List.mem_append.mp hk with h | h
          · exact (hkeys1 k).mpr ((hkeys k).mp (hpush k h))
          · have hks : k = s := by simpa using h
            subst hks
            exact (hkeys1 k).mpr hsmem
        obtain ⟨st', hrun, hlog, hpushed, hseq', hpush'⟩ :=
          ih seen (s :: done)
            { st with
              records := updateRecord st.records s (applyParse fetchUids st.pushed.length p)
              pushed := st.pushed ++ [s] }
            hwfrest hkeys1 hseq1 hpush1
        refine ⟨st', ?_, ?_, ?_, hseq', hpush'⟩
        · rw [runCollectorAux]
          simp only [collectorStep]
          rw [if_pos hsome]
          exact hrun
        · simpa [parseFailSeqs] using hlog
        · rw [hpushed]
          simp [parseOkSeqs]
    | fetchError m =>
      simp only [wfEvents] at hwf
      cases hwf

/-- C5: in every wellformed fetch trace in which some message's body fails to
parse, getMailList still resolves (the failure never rejects or aborts the
call), the failed message's sequence number is logged, the failed message
alone is dropped from the result, and every message whose body parsed
successfully has a completed record in the result. -/
theorem getMailList_parse_failure_isolated
    (fetchUids : List Nat) (events : List FetchEvent) (s : Nat)
    (hwf : wfEvents [] [] events = true)
    (hfail : FetchEvent.bodyEnd s none ∈ events) :
    ∃ st, runCollector fetchUids events = Except.ok st ∧
      getMailListModel fetchUids events = Except.ok (collectorMails st) ∧
      s ∈ st.log ∧
      (∀ r ∈ collectorMails st, r.seqNo ≠ s) ∧
      (∀ s' p, FetchEvent.bodyEnd s' (some p) ∈ events →
        ∃ r ∈ collectorMails st, r.seqNo = s') := by
  obtain ⟨st, hrun, hlog, hpushed, hseq, hpush⟩ :=
    runAux_spec fetchUids events [] [] initCollector hwf
      (by intro k; simp [initCollector, lookupKey])
      (by intro k r hk; simp [initCollector, lookupKey] at hk)
      (by intro k hk; simp [initCollector] at hk)
  have hrun' : runCollector fetchUids events = Except.ok st := hrun
  refine ⟨st, hrun', ?_, ?_, ?_, ?_⟩
  · show (runCollector fetchUids events).map collectorMails
      = Except.ok (collectorMails st)
    rw [hrun']
    rfl
  · rw [hlog]
    simp only [initCollector, List.nil_append]
    exact mem_parseFailSeqs events s hfail
  · intro r hr heq
    simp only [collectorMails, List.mem_filterMap] at hr
    obtain ⟨k, hkpush, hk⟩ := hr
    have hks : k = s := by rw [← hseq k r hk, heq]
    subst hks
    rw [hpushed] at hkpush
    simp only [initCollector, List.nil_append] at hkpush
    exact wf_fail_not_parseOk events [] [] k hwf hfail hkpush
  · intro s' p hmem
    have hsp : s' ∈ parseOkSeqs events := mem_parseOkSeqs events s' p hmem
    have hsp' : s' ∈ st.pushed := by
      rw [hpushed]
      simpa [initCollector] using hsp
    have hsome := hpush s' hsp'
    cases hl : lookupKey s' st.records with
    | some r =>
      refine ⟨r, ?_, hseq s' r hl⟩
      simp only [collectorMails, List.mem_filterMap]
      exact ⟨s', hsp', hl⟩
    | none =>
      rw [hl] at hsome
      cases hsome

/-- C5 witness: the isolation statement applied to the concrete five-message
fetch in which message 3's body fails to parse. -/
theorem getMailList_parse_failure_isolated_witness :
    ∃ st, runCollector [11, 12, 13, 14, 15] c5trace = Except.ok st ∧
      getMailListModel [11, 12, 13, 14, 15] c5trace = Except.ok (collectorMails st) ∧
      3 ∈ st.log ∧
      (∀ r ∈ collectorMails st, r.seqNo ≠ 3) ∧
      (∀ s' p, FetchEvent.bodyEnd s' (some p) ∈ c5trace →
        ∃ r ∈ collectorMails st, r.seqNo = s') :=
  getMailList_parse_failure_isolated [11, 12, 13, 14, 15] c5trace 3
    (by decide) (by decide)

/-- The pieces produced by the lookahead split concatenate back to the
input. -/
theorem splitEWAux_flatten (l : List Char) :
    ∀ acc, (splitEWAux acc l).flatten = acc.reverse ++ l := by
  induction l with
  | nil => intro acc; simp [splitEWAux]
  | cons c rest ih =>
    intro acc
    by_cases hcond : (!acc.isEmpty && isMarkerAt (c :: rest)) = true
    · rw [splitEWAux, if_pos hcond, List.flatten_cons, ih [c]]
      simp
    · rw [splitEWAux, if_neg hcond, ih (c :: acc)]
      simp

/-- A flat map that leaves every piece unchanged is a flatten. -/
theorem flatMap_id_of_eq (l : List (List Char)) (f : List Char → List Char)
    (h : ∀ x ∈ l, f x = x) : l.flatMap f = l.flatten := by
  induction l with
  | nil => rfl
  | cons x rest ih =>
    simp only [List.flatMap_cons, List.flatten_cons,
      h x (List.mem_cons_self x rest)]
    rw [ih (fun y hy => h y (List.mem_cons_of_mem x hy))]

/-- Every piece of the lookahead split is a contiguous substring of the
input. -/
theorem mem_split_substring (s part : List Char)
    (h : part ∈ splitEWAux [] s) : ∃ a b, s = a ++ part ++ b := by
  obtain ⟨l1, l2, hsplit⟩ := List.append_of_mem h
  refine ⟨l1.flatten, l2.flatten, ?_⟩
  have hj := splitEWAux_flatten s []
  rw [hsplit] at hj
  simp only [List.flatten_append, List.flatten_cons, List.reverse_nil,
    List.nil_append] at hj
  rw [← hj]
  simp [List.append_assoc]

/-- A string containing an encoded word still contains it after padding on
either side. -/
theorem hasEW_extend (t a b : List Char) (h : HasEncodedWord t) :
    HasEncodedWord (a ++ t ++ b) := by
  obtain ⟨pre, cs, e, ct, post, heq, hcs, hct, he, hLTcs, hLTct⟩ := h
  refine ⟨a ++ pre, cs, e, ct, post ++ b, ?_, hcs, hct, he, hLTcs, hLTct⟩
  rw [heq]
  simp [List.append_assoc]

/-- The head surviving a dropWhile fails the predicate. -/
theorem dropWhile_head_false (p : Char → Bool) (l : List Char) :
    ∀ c rest, List.dropWhile p l = c :: rest → p c = false := by
  induction l with
  | nil => intro c rest h; simp [List.dropWhile] at h
  | cons x xs ih =>
    intro c rest h
    by_cases hx : p x
    · rw [List.dropWhile_cons, if_pos hx] at h
      exact ih c rest h
    · rw [List.dropWhile_cons, if_neg hx] at h
      injection h with h1 _
      rw [← h1]
      exact Bool.of_not_eq_true hx

/-- Dropping a prefix twice is the same as dropping it once. -/
theorem dropWhile_idem (p : Char → Bool) (l : List Char) :
    List.dropWhile p (List.dropWhile p l) = List.dropWhile p l := by
  cases hd : List.dropWhile p l with
  | nil => rfl
  | cons c rest =>
    rw [List.dropWhile_cons, if_neg]
    rw [dropWhile_head_false p l c rest hd]
    simp

/-- The front-trimmed list is the trimmed list followed by the trailing
whitespace. -/
theorem dropWhile_eq_trim_append (l : List Char) :
    l.dropWhile isJSSpace
      = jsTrim l ++ ((l.dropWhile isJSSpace).reverse.takeWhile isJSSpace).reverse := by
  have h2 : (l.dropWhile isJSSpace).reverse
      = (l.dropWhile isJSSpace).reverse.takeWhile isJSSpace
        ++ (l.dropWhile isJSSpace).reverse.dropWhile isJSSpace :=
    (List.takeWhile_append_dropWhile ..).symm
  have h2' := congrArg List.reverse h2
  rw [List.reverse_reverse, List.reverse_append] at h2'
  exact h2'

/-- The trimmed string is a contiguous substring of the input. -/
theorem jsTrim_substring (l : List Char) : ∃ a b, l = a ++ jsTrim l ++ b := by
  refine ⟨l.takeWhile isJSSpace,
    ((l.dropWhile isJSSpace).reverse.takeWhile isJSSpace).reverse, ?_⟩
  have h1 : l = l.takeWhile isJSSpace ++ l.dropWhile isJSSpace :=
    (List.takeWhile_append_dropWhile ..).symm
  rw [List.append_assoc, ← dropWhile_eq_trim_append]
  exact h1

/-- Trimming is idempotent. -/
theorem jsTrim_idem (l : List Char) : jsTrim (jsTrim l) = jsTrim l := by
  have hdropfix : List.dropWhile isJSSpace (jsTrim l) = jsTrim l := by
    cases ht : jsTrim l with
    | nil => rfl
    | cons c rest =>
      have hmem : ∃ v, l.dropWhile isJSSpace = c :: v := by
        have hm := dropWhile_eq_trim_append l
        rw [ht, List.cons_append] at hm
        exact ⟨_, hm⟩
      obtain ⟨v, hv⟩ := hmem
      rw [List.dropWhile_cons, if_neg]
      rw [dropWhile_head_false isJSSpace l c v hv]
      simp
  have hstep : jsTrim (jsTrim l)
      = (((jsTrim l).dropWhile isJSSpace).reverse.dropWhile isJSSpace).reverse := rfl
  rw [hstep, hdropfix]
  have h4 : (jsTrim l).reverse
      = (l.dropWhile isJSSpace).reverse.dropWhile isJSSpace := by
    simp only [jsTrim, List.reverse_reverse]
  rw [h4, dropWhile_idem]
  rfl

/-- Soundness of the content matcher: a successful match decomposes its input
as a non-empty line-terminator-free content group terminated by the literal
question-mark equals. -/
theorem findContent_sound (u : List Char) :
    ∀ ct, findContent u = some ct →
      ∃ r, u = ct ++ '?' :: '=' :: r ∧ ct ≠ [] ∧
        ∀ c ∈ ct, isLineTerm c = false := by
  induction u using findContent.induct with
  | case1 => intro ct h; simp [findContent] at h
  | case2 c rest hLT => intro ct h; simp [findContent, hLT] at h
  | case3 c hLT tail =>
    intro ct h
    rw [findContent, if_neg hLT] at h
    injection h with h'
    subst h'
    refine ⟨tail, rfl, by simp, ?_⟩
    intro d hd
    rcases List.mem_cons.mp hd with hd | hd
    · subst hd
      exact Bool.of_not_eq_true hLT
    · simp at hd
  | case4 c rest hLT ct' hrest hne ih =>
    intro ct h
    rw [findContent, if_neg hLT] at h
    · rw [hrest] at h
      injection h with h'
      subst h'
      obtain ⟨r, hr, _, hLTall⟩ := ih ct' hrest
      refine ⟨r, by rw [hr]; rfl, by simp, ?_⟩
      intro d hd
      rcases List.mem_cons.mp hd with hd | hd
      · subst hd
        exact Bool.of_not_eq_true hLT
      · exact hLTall d hd
    · exact hne
  | case5 c rest hLT hrest hne ih =>
    intro ct h
    rw [findContent, if_neg hLT] at h
    · rw [hrest] at h
      cases h
    · exact hne

/-- Soundness of the charset/encoding matcher: a successful match decomposes
its input as the full encoded-word pattern after the leading marker. -/
theorem matchCore_sound (u : List Char) :
    ∀ cs e ct, matchCore u = some (cs, e, ct) →
      ∃ r, u = cs ++ '?' :: e :: '?' :: (ct ++ '?' :: '=' :: r) ∧
        cs ≠ [] ∧ ct ≠ [] ∧ (e = 'B' ∨ e = 'Q') ∧
        (∀ c ∈ cs, isLineTerm c = false) ∧
        (∀ c ∈ ct, isLineTerm c = false) := by
  induction u using matchCore.induct with
  | case1 => intro cs e ct h; simp [matchCore] at h
  | case2 c rest hLT => intro cs e ct h; simp [matchCore, hLT] at h
  | case3 c hLT e2 tail hBQ ct2 hfc =>
    intro cs e ct h
    rw [matchCore, if_neg hLT, if_pos hBQ, hfc] at h
    injection h with h'
    injection h' with h1 h'
    injection h' with h2 h3
    subst h1
    subst h2
    subst h3
    obtain ⟨r, hr, hctne, hLTct⟩ := findContent_sound tail ct2 hfc
    refine ⟨r, by rw [hr]; rfl, by simp, hctne, ?_, ?_, hLTct⟩
    · rcases Bool.or_eq_true_iff.mp hBQ with hb | hb
      · exact Or.inl (of_decide_eq_true hb)
      · exact Or.inr (of_decide_eq_true hb)
    · intro d hd
      rcases List.mem_cons.mp hd with hd | hd
      · subst hd
        exact Bool.of_not_eq_true hLT
      · simp at hd
  | case4 c hLT e2 tail hBQ hfc cs2 e2' ct2 hm ih =>
    intro cs e ct h
    rw [matchCore, if_neg hLT, if_pos hBQ, hfc, hm] at h
    injection h with h'
    injection h' with h1 h'
    injection h' with h2 h3
    subst h1
    subst h2
    subst h3
    obtain ⟨r, hr, hcs2, hct2, he2', hLTcs2, hLTct2⟩ := ih cs2 e2' ct2 hm
    refine ⟨r, by rw [hr]; rfl, by simp, hct2, he2', ?_, hLTct2⟩
    intro d hd
    rcases List.mem_cons.mp hd with hd | hd
    · subst hd
      exact Bool.of_not_eq_true hLT
    · exact hLTcs2 d hd
  | case5 c hLT e2 tail hBQ hfc hm ih =>
    intro cs e ct h
    rw [matchCore, if_neg hLT, if_pos hBQ, hfc, hm] at h
    cases h
  | case6 c hLT e2 tail hBQ cs2 e2' ct2 hm ih =>
    intro cs e ct h
    rw [matchCore, if_neg hLT, if_neg hBQ, hm] at h
    injection h with h'
    injection h' with h1 h'
    injection h' with h2 h3
    subst h1
    subst h2
    subst h3
    obtain ⟨r, hr, hcs2, hct2, he2', hLTcs2, hLTct2⟩ := ih cs2 e2' ct2 hm
    refine ⟨r, by rw [hr]; rfl, by simp, hct2, he2', ?_, hLTct2⟩
    intro d hd
    rcases List.mem_cons.mp hd with hd | hd
    · subst hd
      exact Bool.of_not_eq_true hLT
    · exact hLTcs2 d hd
  | case7 c hLT e2 tail hBQ hm ih =>
    intro cs e ct h
    rw [matchCore, if_neg hLT, if_neg hBQ, hm] at h
    cases h
  | case8 c rest hLT cs2 e2' ct2 hm hne ih =>
    intro cs e ct h
    rw [matchCore, if_neg hLT] at h
    · rw [hm] at h
      injection h with h'
      injection h' with h1 h'
      injection h' with h2 h3
      subst h1
      subst h2
      subst h3
      obtain ⟨r, hr, hcs2, hct2, he2', hLTcs2, hLTct2⟩ := ih cs2 e2' ct2 hm
      refine ⟨r, by rw [hr]; rfl, by simp, hct2, he2', ?_, hLTct2⟩
      intro d hd
      rcases List.mem_cons.mp hd with hd | hd
      · subst hd
        exact Bool.of_not_eq_true hLT
      · exact hLTcs2 d hd
    · exact hne
  | case9 c rest hLT hm hne ih =>
    intro cs e ct h
    rw [matchCore, if_neg hLT] at h
    · rw [hm] at h
      cases h
    · exact hne

/-- Soundness of the leftmost scan: a successful match exhibits the
encoded-word pattern somewhere in the input. -/
theorem findEncodedWordIn_sound (u : List Char) :
    ∀ g, findEncodedWordIn u = some g → HasEncodedWord u := by
  induction u using findEncodedWordIn.induct with
  | case1 => intro g h; simp [findEncodedWordIn] at h
  | case2 tail g2 hm =>
    intro g h
    obtain ⟨cs, e, ct⟩ := g2
    obtain ⟨r, hr, hcs, hct, he, hLTcs, hLTct⟩ := matchCore_sound tail cs e ct hm
    exact ⟨[], cs, e, ct, r, by rw [hr]; rfl, hcs, hct, he, hLTcs, hLTct⟩
  | case3 tail hm ih =>
    intro g h
    rw [findEncodedWordIn.eq_def] at h
    simp only [] at h
    rw [if_pos trivial, hm] at h
    simp only [] at h
    obtain ⟨pre, cs, e, ct, post, heq, hcs, hct, he, hLTcs, hLTct⟩ := ih g h
    exact ⟨'=' :: pre, cs, e, ct, post, by rw [heq]; rfl, hcs, hct, he,
      hLTcs, hLTct⟩
  | case4 rest hne ih =>
    intro g h
    rw [findEncodedWordIn.eq_def] at h
    simp only [] at h
    rw [if_pos trivial] at h
    obtain ⟨pre, cs, e, ct, post, heq, hcs, hct, he, hLTcs, hLTct⟩ := ih g h
    exact ⟨'=' :: pre, cs, e, ct, post, by rw [heq]; rfl, hcs, hct, he,
      hLTcs, hLTct⟩
  | case5 c rest hc ih =>
    intro g h
    rw [findEncodedWordIn.eq_def] at h
    simp only [] at h
    rw [if_neg hc] at h
    obtain ⟨pre, cs, e, ct, post, heq, hcs, hct, he, hLTcs, hLTct⟩ := ih g h
    exact ⟨c :: pre, cs, e, ct, post, by rw [heq]; rfl, hcs, hct, he,
      hLTcs, hLTct⟩

/-- Completeness of the content matcher: a well-shaped input always
matches. -/
theorem findContent_complete (ct : List Char) :
    ∀ r, ct ≠ [] → (∀ c ∈ ct, isLineTerm c = false) →
      (findContent (ct ++ '?' :: '=' :: r)).isSome = true := by
  induction ct with
  | nil => intro r hne _; exact absurd rfl hne
  | cons c ct' ih =>
    intro r _ hLT
    have hc : isLineTerm c = false := hLT c (List.mem_cons_self ..)
    by_cases hct' : ct' = []
    · subst hct'
      rw [show ([c] ++ '?' :: '=' :: r) = c :: '?' :: '=' :: r from rfl]
      rw [findContent, if_neg (by simp [hc])]
      rfl
    · rw [show ((c :: ct') ++ '?' :: '=' :: r) = c :: (ct' ++ '?' :: '=' :: r) from rfl]
      rw [findContent.eq_def]
      simp only []
      rw [if_neg (by simp [hc])]
      split
      · rfl
      · have hih := ih r hct' (fun d hd => hLT d (List.mem_cons_of_mem c hd))
        cases hfc : findContent (ct' ++ '?' :: '=' :: r) with
        | some x => simp [hfc]
        | none =>
          rw [hfc] at hih
          cases hih

/-- Completeness of the charset/encoding matcher: a well-shaped input always
matches. -/
theorem matchCore_complete (cs : List Char) :
    ∀ e ct r, cs ≠ [] → (∀ c ∈ cs, isLineTerm c = false) →
      (e = 'B' ∨ e = 'Q') → ct ≠ [] → (∀ c ∈ ct, isLineTerm c = false) →
      (matchCore (cs ++ '?' :: e :: '?' :: (ct ++ '?' :: '=' :: r))).isSome = true := by
  induction cs with
  | nil => intro e ct r hne _ _ _ _; exact absurd rfl hne
  | cons c cs' ih =>
    intro e ct r _ hLTcs he hct hLTct
    have hc : isLineTerm c = false := hLTcs c (List.mem_cons_self ..)
    have heB : (e = 'B' || e = 'Q') = true := by
      rcases he with h | h <;> simp [h]
    by_cases hcs' : cs' = []
    · subst hcs'
      rw [show ([c] ++ '?' :: e :: '?' :: (ct ++ '?' :: '=' :: r))
          = c :: '?' :: e :: '?' :: (ct ++ '?' :: '=' :: r) from rfl]
      rw [matchCore.eq_def]
      simp only []
      rw [if_neg (by simp [hc]), if_pos heB]
      cases hfc : findContent (ct ++ '?' :: '=' :: r) with
      | some x => simp [hfc]
      | none =>
        have hcc := findContent_complete ct r hct hLTct
        rw [hfc] at hcc
        cases hcc
    · have hih := ih e ct r hcs'
        (fun d hd => hLTcs d (List.mem_cons_of_mem c hd)) he hct hLTct
      have hfall : (match matchCore (cs' ++ '?' :: e :: '?' :: (ct ++ '?' :: '=' :: r)) with
          | some (cs2, e2, ct2) => some (c :: cs2, e2, ct2)
          | none => none).isSome = true := by
        cases hm : matchCore (cs' ++ '?' :: e :: '?' :: (ct ++ '?' :: '=' :: r)) with
        | some g =>
          obtain ⟨a, b, d⟩ := g
          simp [hm]
        | none =>
          rw [hm] at hih
          cases hih
      rw [show ((c :: cs') ++ '?' :: e :: '?' :: (ct ++ '?' :: '=' :: r))
          = c :: (cs' ++ '?' :: e :: '?' :: (ct ++ '?' :: '=' :: r)) from rfl]
      rw [matchCore.eq_def]
      simp only []
      rw [if_neg (by simp [hc])]
      split
      · next e2 rest2 heq =>
        split
        · cases hfc : findContent rest2 with
          | some x => simp [hfc]
          | none =>
            simp only []
            exact hfall
        · exact hfall
      · next =>
        exact hfall

/-- Completeness of the leftmost scan: a string exhibiting the encoded-word
pattern always matches. -/
theorem findEncodedWordIn_complete (u : List Char) :
    HasEncodedWord u → (findEncodedWordIn u).isSome = true := by
  induction u with
  | nil =>
    intro h
    obtain ⟨pre, cs, e, ct, post, heq, _, _, _, _, _⟩ := h
    cases pre <;> simp at heq
  | cons c rest ih =>
    intro h
    obtain ⟨pre, cs, e, ct, post, heq, hcs, hct, he, hLTcs, hLTct⟩ := h
    cases pre with
    | nil =>
      simp only [List.nil_append] at heq
      injection heq with h1 h2
      subst h1
      subst h2
      rw [findEncodedWordIn.eq_def]
      simp only []
      rw [if_pos trivial]
      have hm := matchCore_complete cs e ct post hcs hLTcs he hct hLTct
      cases hmc : matchCore (cs ++ '?' :: e :: '?' :: (ct ++ '?' :: '=' :: post)) with
      | some g => simp [hmc]
      | none =>
        rw [hmc] at hm
        cases hm
    | cons p pre' =>
      injection heq with h1 h2
      subst h1
      have hrest : HasEncodedWord rest :=
        ⟨pre', cs, e, ct, post, h2, hcs, hct, he, hLTcs, hLTct⟩
      have hihr := ih hrest
      by_cases hc : c = '='
      · subst hc
        rw [findEncodedWordIn.eq_def]
        simp only []
        rw [if_pos trivial]
        split
        · next tail =>
          cases hmc : matchCore tail with
          | some g => simp [hmc]
          | none => simp only [hmc]; exact hihr
        · next => exact hihr
      · rw [findEncodedWordIn.eq_def]
        simp only []
        rw [if_neg hc]
        exact hihr

/-- The decode loop leaves a string without encoded words unchanged: every
split piece fails the match regex and passes through verbatim. -/
theorem decode_core_no_ew (l : List Char) (h : ¬ HasEncodedWord l) :
    ((splitEWAux [] l).flatMap (fun part =>
      match findEncodedWordIn part with
      | none => part
      | some (cs, e, ct) => decodeSegmentPayload cs e ct)) = l := by
  have hparts : ∀ part ∈ splitEWAux [] l,
      (fun part =>
        match findEncodedWordIn part with
        | none => part
        | some (cs, e, ct) => decodeSegmentPayload cs e ct) part = part := by
    intro part hpart
    cases hf : findEncodedWordIn part with
    | none => simp [hf]
    | some g =>
      exfalso
      obtain ⟨a, b, hab⟩ := mem_split_substring l part hpart
      exact h (hab ▸ hasEW_extend part a b (findEncodedWordIn_sound part g hf))
  rw [flatMap_id_of_eq _ _ hparts]
  simpa using splitEWAux_flatten l []

/-- C9: decodeRFC2047 on a plain ASCII string with no encoded-word substring
returns the input unchanged except for trimming leading and trailing
whitespace, and is idempotent on such inputs. -/
theorem decodeRFC2047_plain_ascii_trim_idempotent (s : String)
    (hascii : ∀ c ∈ s.toList, c.toNat < 128)
    (hnm : ¬ HasEncodedWord s.toList) :
    decodeRFC2047 s = String.mk (jsTrim s.toList) ∧
    decodeRFC2047 (decodeRFC2047 s) = decodeRFC2047 s := by
  have hcore : ∀ (t : String), ¬ HasEncodedWord t.toList →
      decodeRFC2047 t = String.mk (jsTrim t.toList) := by
    intro t ht
    show String.mk (jsTrim ((splitEWAux [] t.toList).flatMap _)) = _
    rw [show ((splitEWAux [] t.toList).flatMap (fun part =>
        match findEncodedWordIn part with
        | none => part
        | some (cs, e, ct) => decodeSegmentPayload cs e ct)) = t.toList
      from decode_core_no_ew t.toList ht]
  have h1 : decodeRFC2047 s = String.mk (jsTrim s.toList) := hcore s hnm
  refine ⟨h1, ?_⟩
  have hsub : ¬ HasEncodedWord (jsTrim s.toList) := by
    intro hEW
    obtain ⟨a, b, hab⟩ := jsTrim_substring s.toList
    exact hnm (hab ▸ hasEW_extend (jsTrim s.toList) a b hEW)
  have h2 : decodeRFC2047 (String.mk (jsTrim s.toList))
      = String.mk (jsTrim (jsTrim s.toList)) := by
    have := hcore (String.mk (jsTrim s.toList)) (by rw [toList_mkStr]; exact hsub)
    rw [toList_mkStr] at this
    exact this
  rw [h1, h2, jsTrim_idem, ← h1]

/-- C9 witness: the decoder applied to a concrete plain ASCII string with
surrounding whitespace. -/
theorem decodeRFC2047_plain_ascii_trim_idempotent_witness :
    decodeRFC2047 "  Hello World  " = String.mk (jsTrim ("  Hello World  ".toList)) ∧
    decodeRFC2047 (decodeRFC2047 "  Hello World  ") = decodeRFC2047 "  Hello World  " :=
  decodeRFC2047_plain_ascii_trim_idempotent "  Hello World  "
    (by decide)
    (fun h => by
      have hx := findEncodedWordIn_complete ("  Hello World  ".toList) h
      rw [show findEncodedWordIn ("  Hello World  ".toList) = none from by decide] at hx
      exact absurd hx (by decide))

/-- C10 witness: the invariant applied to the concrete single-message fetch
that delivers one attachment. -/
theorem getMailList_attachment_partID_none_witness :
    (MailAttachment.mk (some "cv.pdf") "application/pdf" 2 none [1, 2]).partID
      = none :=
  getMailList_attachment_partID_none [5] c10trace
    [{ uid := some 5, seqNo := 1, headers := [], subject := some "s",
       fromText := some "N/A", toText := some "N/A", date := some "N/A",
       text := none, html := none,
       attachments := [MailAttachment.mk (some "cv.pdf") "application/pdf" 2 none [1, 2]] }]
    (by rfl)
    { uid := some 5, seqNo := 1, headers := [], subject := some "s",
      fromText := some "N/A", toText := some "N/A", date := some "N/A",
      text := none, html := none,
      attachments := [MailAttachment.mk (some "cv.pdf") "application/pdf" 2 none [1, 2]] }
    (by decide)
    (MailAttachment.mk (some "cv.pdf") "application/pdf" 2 none [1, 2])
    (by decide)

/-- C4 witness: the amended statement instantiated for `thisWeek` on a
concrete date. -/
theorem buildSearchCriteria_since_only_shape_witness :
    ∃ d, buildSearchCriteria ⟨2024, 2, 5, 2⟩ ⟨none, some TimeRange.thisWeek⟩
        = Except.ok [SearchTerm.all, SearchTerm.since (formatDate d)] ∧
      ([SearchTerm.all, SearchTerm.since (formatDate d)].countP
        (fun t => t.isSince) = 1) ∧
      ([SearchTerm.all, SearchTerm.since (formatDate d)].countP
        (fun t => t.isBefore) = 0) :=
  (buildSearchCriteria_since_only_shape ⟨2024, 2, 5, 2⟩ none).2.1 TimeRange.thisWeek
    (by decide) (by decide)

end ResumeParser
